import Mathlib

/-!
Duty scheduler: the rotation engine of `scheduler.js`.

A shallow embedding of `SmartScheduler` (src/scheduler.js) together with the
two consumers of its output that the properties below refer to
(`CalendarView.getMonthDays` of src/calendar.js and
`DutySchedulerApp.filterPersonalSchedule` of src/main.js).

Modelling conventions.

* A JavaScript number that the engine computes with is an `Option Int`:
  `some n` is the integer `n`, `none` stands for a value that is not a
  number: `undefined`, `NaN`, or a function or object read through the
  prototype (every comparison with it is false, and every arithmetic result
  is again not a number).
* A plain JavaScript object used as a dictionary is the list of its own
  properties in the order of their creation; writing an existing key replaces
  its value in place.  For an object keyed by participant ids the model also
  follows what a plain object inherits from `Object.prototype`: a read of a
  missing key that names an inherited member finds that member (`dictGet`),
  a write of a primitive to `'__proto__'` is ignored (`dictSet`), and
  `Object.entries` lists array-index keys first (`objEntries`).  The schedule
  is keyed by date strings, which are neither, so plain `objGet`/`objSet`
  describe it.
* A calendar date string `'YYYY-MM-DD'` is represented by the number of its
  day (days since 1970-01-01); `dayjs(str)` and `.format('YYYY-MM-DD')` are
  inverse to each other on such strings.
* `Math.random()` is a fraction `num / den`; the running value `random` of
  `selectEmployee` is kept multiplied by `den`, so that all arithmetic stays
  exact in `Int`.  Any candidate a floating point run can return is returned
  by the model for some fraction.
-/

namespace DutyScheduler

/-! ## JavaScript values -/

/-- A JavaScript number: `none` is a value that is not a number
(`undefined`, `NaN`, a function or an object). -/
abbrev JSNum := Option Int

/-- The comparison `a <= b`. -/
def jsLe (a b : JSNum) : Bool :=
  match a, b with
  | some x, some y => decide (x ≤ y)
  | _, _ => false

/-- The comparison `a > b`. -/
def jsGt (a b : JSNum) : Bool :=
  match a, b with
  | some x, some y => decide (y < x)
  | _, _ => false

/-- The comparison `a < b`. -/
def jsLt (a b : JSNum) : Bool :=
  match a, b with
  | some x, some y => decide (x < y)
  | _, _ => false

/-- The sum `a + b`. -/
def jsAdd (a b : JSNum) : JSNum :=
  match a, b with
  | some x, some y => some (x + y)
  | _, _ => none

/-- The difference `a - b`. -/
def jsSub (a b : JSNum) : JSNum :=
  match a, b with
  | some x, some y => some (x - y)
  | _, _ => none

/-- The value `Math.abs(a)`. -/
def jsAbs (a : JSNum) : JSNum :=
  match a with
  | some x => some |x|
  | none => none

/-- The value `Math.max(a, b)`: `NaN` as soon as one argument is. -/
def jsMax (a b : JSNum) : JSNum :=
  match a, b with
  | some x, some y => some (max x y)
  | _, _ => none

/-- The product of an integer factor with a number. -/
def jsScale (k : Int) (a : JSNum) : JSNum :=
  match a with
  | some x => some (k * x)
  | none => none

/-- The values that can sit in the `employee` slot of a schedule entry, or be
compared with it.  `object ref` is a reference to the queue record that
`createPriorityQueue` built from `employees[ref]`. -/
inductive JSValue where
  | undefined
  | null
  | string (s : String)
  | object (ref : Nat)
deriving DecidableEq, Repr

/-- The strict equality `a === b`: same type and same value; two objects are
equal when they are the same reference. -/
def strictEquals : JSValue → JSValue → Bool
  | .undefined, .undefined => true
  | .null, .null => true
  | .string a, .string b => decide (a = b)
  | .object a, .object b => decide (a = b)
  | _, _ => false

/-- Truthiness, as tested by `if (v)` and `v && ...`. -/
def truthy : JSValue → Bool
  | .undefined => false
  | .null => false
  | .string s => decide (s ≠ "")
  | .object _ => true

/-- The property key a value becomes in `obj[v]`. -/
def toPropertyKey : JSValue → String
  | .undefined => "undefined"
  | .null => "null"
  | .string s => s
  | .object _ => "[object Object]"

/-- The errors the engine can raise: `error msg` is `new Error(msg)`,
`typeError` is the `TypeError` of a property access on `undefined` or of
`Object.values(null)`. -/
inductive JSError where
  | error (message : String)
  | typeError
deriving DecidableEq, Repr

deriving instance DecidableEq for Except

/-! ## Objects as dictionaries -/

/-- The read `obj[key]`; `none` is `undefined`. -/
def objGet {κ α : Type} [DecidableEq κ] : List (κ × α) → κ → Option α
  | [], _ => none
  | (k, v) :: rest, key => if k = key then some v else objGet rest key

/-- The write `obj[key] = value`. -/
def objSet {κ α : Type} [DecidableEq κ] : List (κ × α) → κ → α → List (κ × α)
  | [], key, value => [(key, value)]
  | (k, v) :: rest, key, value =>
    if k = key then (k, value) :: rest else (k, v) :: objSet rest key value

/-- The names of the members of `Object.prototype`, which every plain object
inherits. -/
def objectPrototypeMembers : List String :=
  ["constructor", "__defineGetter__", "__defineSetter__", "hasOwnProperty",
   "__lookupGetter__", "__lookupSetter__", "isPrototypeOf", "propertyIsEnumerable",
   "toString", "valueOf", "__proto__", "toLocaleString"]

/-- What the read `obj[key]` finds in a plain object: an own property, a
member inherited from `Object.prototype` (a function, or the prototype object
itself for `__proto__`), or nothing (`undefined`). -/
inductive Slot (α : Type) where
  | own (v : α)
  | inherited
  | undefined
deriving DecidableEq, Repr

/-- The read `obj[key]` on a plain object with string keys. -/
def dictGet {α : Type} (o : List (String × α)) (key : String) : Slot α :=
  match objGet o key with
  | some v => Slot.own v
  | none => if key ∈ objectPrototypeMembers then Slot.inherited else Slot.undefined

/-- The write `obj[key] = value` of a primitive value (a number or a string)
on a plain object with string keys.  The key `'__proto__'`, unless it is an
own property, reaches the setter of `Object.prototype`, which ignores a
primitive: no property is created. -/
def dictSet {α : Type} (o : List (String × α)) (key : String) (value : α) :
    List (String × α) :=
  if key = "__proto__" ∧ (objGet o key).isNone = true then o else objSet o key value

/-- The number a string of decimal digits denotes. -/
def digitsValue (cs : List Char) : Nat :=
  cs.foldl (fun n c => 10 * n + (c.toNat - 48)) 0

/-- The array index a property key denotes, if it is one: a canonical decimal
numeral below `2^32 - 1`. -/
def arrayIndex? (key : String) : Option Nat :=
  let cs := key.toList
  if cs ≠ [] ∧ cs.all Char.isDigit = true ∧ (cs.length = 1 ∨ cs.head? ≠ some '0')
      ∧ digitsValue cs < 4294967295 then
    some (digitsValue cs)
  else none

/-- The order of two array-index keys in an enumeration. -/
def indexOrder {α : Type} (a b : String × α) : Prop :=
  (arrayIndex? a.1).getD 0 ≤ (arrayIndex? b.1).getD 0

instance {α : Type} : DecidableRel (@indexOrder α) := fun a b =>
  inferInstanceAs (Decidable ((arrayIndex? a.1).getD 0 ≤ (arrayIndex? b.1).getD 0))

/-- The number that a read of a numeric dictionary yields: the own value, and
no number for `undefined` or an inherited member. -/
def slotNumber : Slot Int → JSNum
  | Slot.own n => some n
  | Slot.inherited => none
  | Slot.undefined => none

/-- The list `Object.entries(obj)`: the array-index keys in ascending numeric
order, then the other keys in the order of their creation. -/
def objEntries {α : Type} (o : List (String × α)) : List (String × α) :=
  (o.filter (fun p => (arrayIndex? p.1).isSome)).insertionSort indexOrder
    ++ o.filter (fun p => !(arrayIndex? p.1).isSome)

/-! ## Day.js -/

/-- Milliseconds per day. -/
def msPerDay : Int := 86400000

/-- A Day.js object: an instant in milliseconds since the epoch, read on the
local clock.  Day.js objects are immutable: every operation returns a new
object and leaves its receiver unchanged. -/
structure Dayjs where
  ms : Int
deriving DecidableEq, Repr

/-- A date string `'YYYY-MM-DD'`, represented by its day number. -/
abbrev DateKey := Int

namespace Dayjs

/-- The number of the calendar day of an instant. -/
def dayNumber (d : Dayjs) : Int := d.ms / msPerDay

/-- The test `a.isBefore(b)`. -/
def isBefore (a b : Dayjs) : Bool := decide (a.ms < b.ms)

/-- The test `a.isSame(b, 'day')`. -/
def isSame (a b : Dayjs) : Bool := decide (a.dayNumber = b.dayNumber)

/-- The value of `a.add(n, 'day')`: a new object. -/
def add (a : Dayjs) (n : Int) : Dayjs := ⟨a.ms + n * msPerDay⟩

/-- The value of `a.subtract(n, 'day')`: a new object. -/
def subtract (a : Dayjs) (n : Int) : Dayjs := ⟨a.ms - n * msPerDay⟩

/-- The weekday `a.day()`, 0 = Sunday; 1970-01-01 was a Thursday. -/
def day (a : Dayjs) : Int := (a.dayNumber + 4) % 7

/-- The civil date (year, month, day of month) of a day number, in the
proleptic Gregorian calendar. -/
def civil (z0 : Int) : Int × Int × Int :=
  let z := z0 + 719468
  let era := z / 146097
  let doe := z - era * 146097
  let yoe := (doe - doe / 1460 + doe / 36524 - doe / 146096) / 365
  let doy := doe - (365 * yoe + yoe / 4 - yoe / 100)
  let mp := (5 * doy + 2) / 153
  let d := doy - (153 * mp + 2) / 5 + 1
  let m := if mp < 10 then mp + 3 else mp - 9
  let y := yoe + era * 400 + (if m ≤ 2 then 1 else 0)
  (y, m, d)

/-- Two decimal digits. -/
def pad2 (n : Int) : String :=
  String.mk [Char.ofNat (48 + (n.toNat / 10) % 10), Char.ofNat (48 + n.toNat % 10)]

/-- The string `a.format('MM-DD')`. -/
def formatMMDD (a : Dayjs) : String :=
  let c := civil a.dayNumber
  pad2 c.2.1 ++ "-" ++ pad2 c.2.2

/-- The string `a.format('YYYY-MM-DD')`, as a date key. -/
def format (a : Dayjs) : DateKey := a.dayNumber

/-- The object `dayjs(str)` for a date string: local midnight of that day. -/
def ofKey (k : DateKey) : Dayjs := ⟨k * msPerDay⟩

end Dayjs

/-- The date key of a civil date (inverse of `Dayjs.civil`), used to write
down concrete dates. -/
def ymd (y m d : Int) : DateKey :=
  let y1 := if m ≤ 2 then y - 1 else y
  let era := y1 / 400
  let yoe := y1 - era * 400
  let mp := if m > 2 then m - 3 else m + 9
  let doy := (153 * mp + 2) / 5 + d - 1
  let doe := yoe * 365 + yoe / 4 - yoe / 100 + doy
  era * 146097 + doe - 719468

/-! ## `SmartScheduler` -/

/-- The built-in holidays, `getDefaultHolidays()`. -/
def getDefaultHolidays : List String :=
  ["01-01", "02-14", "04-05", "05-01", "06-14",
   "09-21", "10-01", "10-02", "10-03"]

/-- The test `isHoliday(date)` against `this.holidays`. -/
def isHoliday (holidays : List String) (date : Dayjs) : Bool :=
  let dateStr := date.formatMMDD
  holidays.contains dateStr

/-- One evaluation of the body of the `while` loop of `getDutyDays`: the list
`days` after the conditional `push`. -/
def dutyDaysBody (holidays : List String) (includeSaturday includeSunday : Bool)
    (current : Dayjs) (days : List DateKey) : List DateKey :=
  let dayOfWeek := current.day
  let isWeekend := dayOfWeek = 0 ∨ dayOfWeek = 6
  let isHol := isHoliday holidays current
  if !isHol then
    if ¬ isWeekend ∨ (dayOfWeek = 6 ∧ includeSaturday = true)
        ∨ (dayOfWeek = 0 ∧ includeSunday = true) then
      days ++ [current.format]
    else days
  else days

/-- The `while` loop of `getDutyDays`, run for at most `fuel` iterations;
`none` when the loop is still running after them.  The statement
`current.add(1, 'day')` computes a new object and drops it: `current` is a
`const` and is passed on unchanged. -/
def getDutyDaysLoop (holidays : List String) (includeSaturday includeSunday : Bool)
    (end_ : Dayjs) : Nat → Dayjs → List DateKey → Option (List DateKey)
  | 0, _, _ => none
  | fuel + 1, current, days =>
    if current.isBefore end_ || current.isSame end_ then
      let days1 := dutyDaysBody holidays includeSaturday includeSunday current days
      let _dropped := current.add 1
      getDutyDaysLoop holidays includeSaturday includeSunday end_ fuel current days1
    else some days

/-- The method `getDutyDays(startDate, endDate, includeSaturday, includeSunday)`. -/
def getDutyDays (holidays : List String) (fuel : Nat) (startDate endDate : Dayjs)
    (includeSaturday includeSunday : Bool) : Option (List DateKey) :=
  getDutyDaysLoop holidays includeSaturday includeSunday endDate fuel startDate []

/-- The loop of `CalendarView.getMonthDays` between two instants: here the
result of `add` is assigned back, `current = current.add(1, 'day')`. -/
def getMonthDaysLoop (end_ : Dayjs) : Nat → Dayjs → List Dayjs → Option (List Dayjs)
  | 0, _, _ => none
  | fuel + 1, current, days =>
    if current.isBefore end_ || current.isSame end_ then
      getMonthDaysLoop end_ fuel (current.add 1) (days ++ [current])
    else some days

/-! ## The roster, the targets and one attempt -/

/-- A participant of the roster, `{id, name}`; ids are strings
(`Date.now().toString()` in the application). -/
structure Employee where
  id : String
  name : String
deriving DecidableEq, Repr

/-- The target distribution: participant id to target count (the own
properties of the object). -/
abbrev TargetDistribution := List (String × Int)

/-- The loop `employees.forEach((emp, idx) => ...)` of
`calculateTargetDistribution`, from index `idx` on. -/
def assignTargets (baseCount remainder : Int) :
    Nat → List Employee → TargetDistribution → TargetDistribution
  | _, [], distribution => distribution
  | idx, emp :: rest, distribution =>
    assignTargets baseCount remainder (idx + 1) rest
      (dictSet distribution emp.id (baseCount + (if (idx : Int) < remainder then 1 else 0)))

/-- The method `calculateTargetDistribution(employees, baseCount, remainder)`.
`shuffled` is the outcome of `[...employees].sort(() => Math.random() - 0.5)`;
the method computes it and never reads it. -/
def calculateTargetDistribution (shuffled : List Employee) (employees : List Employee)
    (baseCount remainder : Int) : TargetDistribution :=
  let _unused := shuffled
  assignTargets baseCount remainder 0 employees []

/-- A record of the working queue: `{...emp, remaining, lastDutyDate,
consecutiveDays}`.  `ref` is the identity of the object: the index of the
roster entry it was built from. -/
structure QueueRecord where
  ref : Nat
  id : String
  name : String
  remaining : JSNum
  lastDutyDate : Option DateKey
  consecutiveDays : Int
deriving DecidableEq, Repr

/-- The order kept by `sort((a, b) => b.remaining - a.remaining)`: `a` may
stay in front of `b` unless the comparator is positive. -/
def keepsOrder (a b : QueueRecord) : Prop :=
  jsGt (jsSub b.remaining a.remaining) (some 0) = false

instance : DecidableRel keepsOrder := fun a b =>
  inferInstanceAs (Decidable (jsGt (jsSub b.remaining a.remaining) (some 0) = false))

/-- The call `queue.sort((a, b) => b.remaining - a.remaining)`: a stable sort
by `remaining`, descending. -/
def sortQueue (queue : List QueueRecord) : List QueueRecord :=
  queue.insertionSort keepsOrder

/-- The `employees.map(emp => ({...}))` of `createPriorityQueue`, from index
`idx` on. -/
def createRecords (targetDistribution : TargetDistribution) :
    Nat → List Employee → List QueueRecord
  | _, [] => []
  | idx, emp :: rest =>
    { ref := idx, id := emp.id, name := emp.name,
      remaining := slotNumber (dictGet targetDistribution emp.id),
      lastDutyDate := none, consecutiveDays := 0 }
      :: createRecords targetDistribution (idx + 1) rest

/-- The method `createPriorityQueue(employees, targetDistribution)`. -/
def createPriorityQueue (employees : List Employee)
    (targetDistribution : TargetDistribution) : List QueueRecord :=
  sortQueue (createRecords targetDistribution 0 employees)

/-- The kind of an entry or override: `'duty' | 'rest'`. -/
inductive Kind where
  | duty
  | rest
deriving DecidableEq, Repr

/-- An override, an element of `customProjects`: `{date, type, project}`;
`project` may be missing. -/
structure CustomProject where
  date : DateKey
  type : Kind
  project : Option String
deriving DecidableEq, Repr

/-- An entry of the schedule: `{type, project, employee, assignedAt}`; an
entry written for an override has no `assignedAt`. -/
structure Entry where
  type : Kind
  project : String
  employee : JSValue
  assignedAt : Option Int
deriving DecidableEq, Repr

/-- The schedule: date string to entry. -/
abbrev Schedule := List (DateKey × Entry)

/-- One outcome of `Math.random()`: the fraction `num / den`, in `[0, 1)`
when `num < den`. -/
structure Draw where
  num : Nat
  den : Nat
deriving DecidableEq, Repr

/-- What one attempt reads from outside: the successive outcomes of
`Math.random()` and of `Date.now()`. -/
structure Ambient where
  random : Nat → Draw
  now : Nat → Int

/-- The filter of `selectEmployee` that builds `available`. -/
def isAvailable (date : DateKey) (schedule : Schedule) (emp : QueueRecord) : Bool :=
  if jsLe emp.remaining (some 0) then false
  else
    let yesterday := ((Dayjs.ofKey date).subtract 1).format
    match objGet schedule yesterday with
    | some yesterdayDuty =>
      if strictEquals yesterdayDuty.employee (JSValue.string emp.id) then false else true
    | none => true

/-- The `for (const emp of candidates)` loop of `selectEmployee`; `random` is
the running value multiplied by `den`.  `none` when the loop ends without a
`return`. -/
def pickLoop (den : Nat) : JSNum → List QueueRecord → Option QueueRecord
  | _, [] => none
  | random, emp :: rest =>
    let random1 := jsSub random (jsScale den emp.remaining)
    if jsLe random1 (some 0) then some emp else pickLoop den random1 rest

/-- The method `selectEmployee(queue, date, schedule)`, with the outcome of
its one `Math.random()` call; `none` is `undefined`. -/
def selectEmployee (draw : Draw) (queue : List QueueRecord) (date : DateKey)
    (schedule : Schedule) : Option QueueRecord :=
  let available := queue.filter (isAvailable date schedule)
  let candidates :=
    if available.length > 0 then available
    else queue.filter (fun emp => jsGt emp.remaining (some 0))
  let totalWeight := candidates.foldl (fun sum emp => jsAdd sum emp.remaining) (some 0)
  let random := jsScale draw.num totalWeight
  match pickLoop draw.den random candidates with
  | some emp => some emp
  | none => candidates.head?

/-- The `find` and decrement of `updateQueue`: the first record with the
given id gets `remaining--`. -/
def decrementFirst (employeeId : String) : List QueueRecord → List QueueRecord
  | [] => []
  | e :: rest =>
    if e.id = employeeId then
      { e with remaining := jsSub e.remaining (some 1) } :: rest
    else e :: decrementFirst employeeId rest

/-- The method `updateQueue(queue, employeeId)`. -/
def updateQueue (queue : List QueueRecord) (employeeId : String) : List QueueRecord :=
  sortQueue (decrementFirst employeeId queue)

/-- The value `customProject.project || '休息'`. -/
def projectOrDefault (project : Option String) : String :=
  match project with
  | some s => if s = "" then "休息" else s
  | none => "休息"

/-- The value of the `employee` slot for what `selectEmployee` returned. -/
def employeeValue : Option QueueRecord → JSValue
  | some emp => JSValue.object emp.ref
  | none => JSValue.undefined

/-- The state of one attempt: the schedule and the queue, and how many times
`Math.random()` and `Date.now()` have been called. -/
structure AttemptState where
  schedule : Schedule
  queue : List QueueRecord
  randomCalls : Nat
  nowCalls : Nat

/-- The body of `dutyDays.forEach(date => ...)` in `trySchedule`. -/
def scheduleDay (ambient : Ambient) (customProjects : List CustomProject)
    (st : AttemptState) (date : DateKey) : Except JSError AttemptState :=
  match customProjects.find? (fun p => decide (p.date = date)) with
  | some customProject =>
    match customProject.type with
    | Kind.duty =>
      let employee := selectEmployee (ambient.random st.randomCalls) st.queue date st.schedule
      .ok { st with
        schedule := objSet st.schedule date
          { type := customProject.type, project := projectOrDefault customProject.project,
            employee := employeeValue employee, assignedAt := none }
        randomCalls := st.randomCalls + 1 }
    | Kind.rest =>
      .ok { st with
        schedule := objSet st.schedule date
          { type := customProject.type, project := projectOrDefault customProject.project,
            employee := JSValue.null, assignedAt := none } }
  | none =>
    let employee := selectEmployee (ambient.random st.randomCalls) st.queue date st.schedule
    let schedule1 := objSet st.schedule date
      { type := Kind.duty, project := "日常值班", employee := employeeValue employee,
        assignedAt := some (ambient.now st.nowCalls) }
    match employee with
    | some emp =>
      .ok { schedule := schedule1, queue := updateQueue st.queue emp.id,
            randomCalls := st.randomCalls + 1, nowCalls := st.nowCalls + 1 }
    | none => .error JSError.typeError

/-- The `forEach` of `trySchedule` over the duty days. -/
def scheduleDays (ambient : Ambient) (customProjects : List CustomProject) :
    AttemptState → List DateKey → Except JSError AttemptState
  | st, [] => .ok st
  | st, date :: rest =>
    match scheduleDay ambient customProjects st date with
    | .ok st1 => scheduleDays ambient customProjects st1 rest
    | .error e => .error e

/-- The state in which `trySchedule` starts its loop. -/
def initialState (employees : List Employee) (targetDistribution : TargetDistribution) :
    AttemptState :=
  { schedule := [], queue := createPriorityQueue employees targetDistribution,
    randomCalls := 0, nowCalls := 0 }

/-- The method `trySchedule(dutyDays, employees, targetDistribution,
customProjects)`. -/
def trySchedule (ambient : Ambient) (dutyDays : List DateKey) (employees : List Employee)
    (targetDistribution : TargetDistribution) (customProjects : List CustomProject) :
    Except JSError Schedule :=
  match scheduleDays ambient customProjects (initialState employees targetDistribution)
      dutyDays with
  | .ok st => .ok st.schedule
  | .error e => .error e

/-! ## Scoring, statistics and the retry loop -/

/-- The value of an optional count, 0 when there is none. -/
def orZero : Option Int → Int
  | some n => n
  | none => 0

/-- A value of the object `actual` of `calculateVariance`: a number, or the
text that `+ 1` makes of a function or object (a string that is no number). -/
inductive Count where
  | num (n : Int)
  | text
deriving DecidableEq, Repr

/-- The value `(actual[key] || 0) + 1`. -/
def bump : Slot Count → Count
  | Slot.own (Count.num n) => Count.num (n + 1)
  | Slot.own Count.text => Count.text
  | Slot.inherited => Count.text
  | Slot.undefined => Count.num 1

/-- The value `actual[empId] || 0`, as a number. -/
def actualCount : Slot Count → JSNum
  | Slot.own (Count.num n) => some n
  | Slot.own Count.text => none
  | Slot.inherited => none
  | Slot.undefined => some 0

/-- The first loop of `calculateVariance`: the object `actual`, keyed by the
`employee` slot of the entries that have a truthy one. -/
def countActual : Schedule → List (String × Count) → List (String × Count)
  | [], actual => actual
  | (_, item) :: rest, actual =>
    if truthy item.employee then
      countActual rest
        (dictSet actual (toPropertyKey item.employee)
          (bump (dictGet actual (toPropertyKey item.employee))))
    else countActual rest actual

/-- The second loop of `calculateVariance`, over the entries
`[empId, target]` of the target distribution. -/
def maxDeviation (actual : List (String × Count)) : List (String × Int) → JSNum → JSNum
  | [], variance => variance
  | (empId, target) :: rest, variance =>
    maxDeviation actual rest
      (jsMax variance (jsAbs (jsSub (actualCount (dictGet actual empId)) (some target))))

/-- The method `calculateVariance(schedule, targetDistribution)`; `none` is
`NaN`. -/
def calculateVariance (schedule : Schedule) (targetDistribution : TargetDistribution) :
    JSNum :=
  maxDeviation (countActual schedule []) (objEntries targetDistribution) (some 0)

/-- A statistics record `{name, count}`. -/
structure Stat where
  name : String
  count : Int
deriving DecidableEq, Repr

/-- The statistics: participant id to `{name, count}` (the own properties of
the object). -/
abbrev Stats := List (String × Stat)

/-- The object `stats` while `generateStats` runs: its own properties, and
the record that the write `stats['__proto__'] = {...}` has made its
prototype, if any. -/
structure StatsObject where
  own : Stats
  proto : Option Stat

/-- The first loop of `generateStats`: `stats[emp.id] = {name, count: 0}`.
For the id `'__proto__'` the record becomes the prototype of `stats` and no
own property is created. -/
def initStats : List Employee → StatsObject → StatsObject
  | [], stats => stats
  | emp :: rest, stats =>
    if emp.id = "__proto__" then
      initStats rest { stats with proto := some { name := emp.name, count := 0 } }
    else
      initStats rest
        { stats with own := objSet stats.own emp.id { name := emp.name, count := 0 } }

/-- One step of the second loop of `generateStats`, for an entry whose
`employee` is truthy and has the property key `key`:
`if (stats[key]) stats[key].count++`.  An own record is counted.  Otherwise
the read goes through the prototype: a record installed as prototype is
found under `'__proto__'` and counted, its `name` and `count` are found under
these keys and, when truthy, are primitives on which `count++` throws in
strict mode; a member of `Object.prototype` is an object whose `count` does
not belong to `stats`. -/
def countOne (stats : StatsObject) (key : String) : Except JSError StatsObject :=
  match objGet stats.own key with
  | some stat => .ok { stats with own := objSet stats.own key { stat with count := stat.count + 1 } }
  | none =>
    match stats.proto with
    | some p =>
      if key = "__proto__" then .ok { stats with proto := some { p with count := p.count + 1 } }
      else if key = "name" then (if p.name = "" then .ok stats else .error JSError.typeError)
      else if key = "count" then (if p.count = 0 then .ok stats else .error JSError.typeError)
      else .ok stats
    | none => .ok stats

/-- The second loop of `generateStats`, over `Object.values(schedule)`. -/
def countStats : Schedule → StatsObject → Except JSError StatsObject
  | [], stats => .ok stats
  | (_, item) :: rest, stats =>
    if truthy item.employee then
      match countOne stats (toPropertyKey item.employee) with
      | .ok stats1 => countStats rest stats1
      | .error e => .error e
    else countStats rest stats

/-- The method `generateStats(schedule, employees)`, returning the own
properties of `stats`; `none` is the schedule `null`, on which
`Object.values` throws. -/
def generateStats (schedule : Option Schedule) (employees : List Employee) :
    Except JSError Stats :=
  match schedule with
  | some s =>
    match countStats s (initStats employees { own := [], proto := none }) with
    | .ok stats => .ok stats.own
    | .error e => .error e
  | none => .error JSError.typeError

/-- The configuration `{includeSaturday, includeSunday, customProjects,
maxRetries}`. -/
structure Config where
  includeSaturday : Bool
  includeSunday : Bool
  customProjects : List CustomProject
  maxRetries : Nat

/-- The defaults of the destructuring in `generateSchedule`. -/
def defaultConfig : Config :=
  { includeSaturday := false, includeSunday := false, customProjects := [], maxRetries := 10 }

/-- The result of `generateSchedule`. -/
structure ScheduleResult where
  schedule : Schedule
  stats : Stats
  isBalanced : Bool
  retryCount : Option Nat
  warning : Option String
deriving DecidableEq, Repr

/-- The text of a number in a template string; `none` is `Infinity`. -/
def showNum : Option Int → String
  | some n => toString n
  | none => "Infinity"

/-- The test `variance < minVariance`, false for the variance `NaN`; the
minimum `none` is `Infinity`. -/
def belowMin : JSNum → Option Int → Bool
  | some v, some m => decide (v < m)
  | some _, none => true
  | none, _ => false

/-- The `for (let retry = 0; retry < maxRetries; retry++)` loop of
`generateSchedule` and the `return` after it, with `todo` iterations left;
`minVariance = none` is `Infinity`.  Attempt number `retry` reads its random
numbers and clock from `ambient retry`.  A variance that passes the test
`variance < minVariance` is a number, and becomes the new minimum. -/
def retryLoop (ambient : Nat → Ambient) (dutyDays : List DateKey) (employees : List Employee)
    (targetDistribution : TargetDistribution) (customProjects : List CustomProject)
    (maxRetries : Nat) :
    Nat → Nat → Option Schedule → Option Int → Except JSError ScheduleResult
  | 0, _, bestSchedule, minVariance =>
    match generateStats bestSchedule employees, bestSchedule with
    | .ok stats, some best =>
      .ok { schedule := best, stats := stats, isBalanced := false, retryCount := none,
            warning := some ("经过" ++ toString maxRetries ++ "次尝试，仍无法完全平衡。最大差值："
              ++ showNum minVariance) }
    | .ok _, none => .error JSError.typeError
    | .error e, _ => .error e
  | todo + 1, retry, bestSchedule, minVariance =>
    match trySchedule (ambient retry) dutyDays employees targetDistribution customProjects with
    | .error e => .error e
    | .ok schedule =>
      let variance := calculateVariance schedule targetDistribution
      if variance = some 0 then
        match generateStats (some schedule) employees with
        | .ok stats =>
          .ok { schedule := schedule, stats := stats, isBalanced := true,
                retryCount := some (retry + 1), warning := none }
        | .error e => .error e
      else if belowMin variance minVariance then
        retryLoop ambient dutyDays employees targetDistribution customProjects maxRetries
          todo (retry + 1) (some schedule) variance
      else
        retryLoop ambient dutyDays employees targetDistribution customProjects maxRetries
          todo (retry + 1) bestSchedule minVariance

/-- The method `generateSchedule(employees, startDate, endDate, config)`, for
the holiday list `this.holidays`; `none` when `getDutyDays` is still running
after `fuel` iterations of its loop. -/
def generateSchedule (holidays : List String) (fuel : Nat) (ambient : Nat → Ambient)
    (shuffled : List Employee) (employees : List Employee) (startDate endDate : Dayjs)
    (config : Config) : Option (Except JSError ScheduleResult) :=
  if employees.length = 0 then
    some (.error (JSError.error "员工列表不能为空"))
  else
    match getDutyDays holidays fuel startDate endDate config.includeSaturday
        config.includeSunday with
    | none => none
    | some dutyDays =>
      let totalDays := dutyDays.length
      let baseCount := totalDays / employees.length
      let remainder := totalDays % employees.length
      let targetDistribution :=
        calculateTargetDistribution shuffled employees baseCount remainder
      some (retryLoop ambient dutyDays employees targetDistribution config.customProjects
        config.maxRetries config.maxRetries 0 none none)

/-! ## A consumer of the schedule -/

/-- The loop of `DutySchedulerApp.filterPersonalSchedule` (src/main.js) for
the roster entry `employee`: the dates whose entry satisfies
`item.employee === employee.id`. -/
def filterPersonalSchedule (schedule : Schedule) (employee : Employee) : List DateKey :=
  (schedule.filter
    (fun p => strictEquals p.2.employee (JSValue.string employee.id))).map Prod.fst

/-! ## Concrete inputs -/

/-- A roster entry `{id: '1', name: 'A'}`. -/
def alice : Employee := { id := "1", name := "A" }

/-- A roster entry `{id: '2', name: 'B'}`. -/
def bob : Employee := { id := "2", name := "B" }

/-- A roster entry whose id is `'__proto__'`. -/
def protoEmployee : Employee := { id := "__proto__", name := "P" }

/-- A roster entry whose id is `'constructor'`. -/
def ctorEmployee : Employee := { id := "constructor", name := "C" }

/-- Every `Math.random()` returns 0 and every `Date.now()` returns 0. -/
def calm : Ambient := { random := fun _ => { num := 0, den := 1 }, now := fun _ => 0 }

/-- The first `Math.random()` returns 0, every later one 0.9. -/
def lateDraws : Ambient :=
  { random := fun k => if k = 0 then { num := 0, den := 1 } else { num := 9, den := 10 },
    now := fun _ => 0 }

/-- Tuesday 2024-01-02 to Friday 2024-01-05: four weekdays, none a holiday. -/
def fourDays : List DateKey := [ymd 2024 1 2, ymd 2024 1 3, ymd 2024 1 4, ymd 2024 1 5]

/-- The targets `generateSchedule` computes for `[alice, bob]` and four duty
days: `{'1': 2, '2': 2}`. -/
def twoEach : TargetDistribution :=
  calculateTargetDistribution [] [alice, bob] ((4 / 2 : Nat) : Int) ((4 % 2 : Nat) : Int)

/-- The targets `generateSchedule` computes for `[alice]` and one duty day:
`{'1': 1}`. -/
def oneForAlice : TargetDistribution :=
  calculateTargetDistribution [] [alice] ((1 / 1 : Nat) : Int) ((1 % 1 : Nat) : Int)

/-! ## Reference notions for the statements -/

/-- The targets by position: entry number `idx + i` of the roster gets
`baseCount + 1` when its position is below `remainder`, `baseCount`
otherwise. -/
def targetList (baseCount remainder : Int) : Nat → List Employee → TargetDistribution
  | _, [] => []
  | idx, emp :: rest =>
    (emp.id, baseCount + (if (idx : Int) < remainder then 1 else 0))
      :: targetList baseCount remainder (idx + 1) rest

/-- The quota left in a queue: the sum of `remaining` over its records. -/
def totalRemaining (queue : List QueueRecord) : Int :=
  (queue.map (fun r => orZero r.remaining)).sum

/-- The fields of a queue record that never change. -/
def skel (r : QueueRecord) : Nat × String × String := (r.ref, r.id, r.name)

/-- The unchanging fields of the records built from a roster, from index
`idx` on. -/
def skeletonFrom : Nat → List Employee → List (Nat × String × String)
  | _, [] => []
  | idx, emp :: rest => (idx, emp.id, emp.name) :: skeletonFrom (idx + 1) rest

/-- The override that `trySchedule` applies to a date:
`customProjects.find(p => p.date === date)`. -/
def overrideFor (customProjects : List CustomProject) (date : DateKey) : Option CustomProject :=
  customProjects.find? (fun p => decide (p.date = date))

/-- The number of entries written on an ordinary day (they carry
`assignedAt`) whose `employee` slot is the queue record number `ref`. -/
def countNormal (ref : Nat) (schedule : Schedule) : Nat :=
  schedule.countP (fun p => decide (p.2.employee = JSValue.object ref) && p.2.assignedAt.isSome)

/-- The number of entries written on an ordinary day. -/
def normalCount (schedule : Schedule) : Nat :=
  schedule.countP (fun p => p.2.assignedAt.isSome)

/-- The number of Duty-kind entries whose `employee` slot is the queue record
number `ref`: the assignments given to that participant. -/
def assignedCount (ref : Nat) (schedule : Schedule) : Nat :=
  schedule.countP
    (fun p => decide (p.2.type = Kind.duty) && decide (p.2.employee = JSValue.object ref))

/-- What the entry of a date has to look like, given the overrides. -/
def EntryOK (employees : List Employee) (customProjects : List CustomProject)
    (date : DateKey) (e : Entry) : Prop :=
  match overrideFor customProjects date with
  | some p =>
    e.type = p.type ∧ e.project = projectOrDefault p.project ∧ e.assignedAt = none ∧
      (match p.type with
       | Kind.rest => e.employee = JSValue.null
       | Kind.duty => ∃ i, i < employees.length ∧ e.employee = JSValue.object i)
  | none =>
    e.type = Kind.duty ∧ e.project = "日常值班" ∧ e.assignedAt ≠ none ∧
      ∃ i, i < employees.length ∧ e.employee = JSValue.object i

/-- The invariant of the loop of `trySchedule`, after the days `done` and
before the days `rest`. -/
structure Inv (employees : List Employee) (target : TargetDistribution)
    (customProjects : List CustomProject) (done rest : List DateKey)
    (st : AttemptState) : Prop where
  keys : st.schedule.map Prod.fst = done
  skeleton : (st.queue.map skel).Perm (skeletonFrom 0 employees)
  nonneg : ∀ r ∈ st.queue, ∃ n : Int, r.remaining = some n ∧ 0 ≤ n
  quota : ∀ r ∈ st.queue, ∃ t : Int, objGet target r.id = some t ∧
    r.remaining = some (t - (countNormal r.ref st.schedule : Int))
  exact : totalRemaining st.queue + (normalCount st.schedule : Int)
    = ((done.length + rest.length : Nat) : Int)
  entries : ∀ p ∈ st.schedule, EntryOK employees customProjects p.1 p.2

/-- The date has a `rest` override. -/
def hasRestOverride (customProjects : List CustomProject) (date : DateKey) : Prop :=
  ∃ o, overrideFor customProjects date = some o ∧ o.type = Kind.rest

/-- The target distribution of a roster for a list of `T` duty days: the
object that gives the participant at position `i` the target `floor(T/N) + 1`
when `i < T mod N` and `floor(T/N)` otherwise.  It is what
`calculateTargetDistribution(employees, floor(T/N), T mod N)` returns,
whatever the shuffled copy, for a roster with distinct ids none of which is
`'__proto__'` (`calculateTargetDistribution_eq_targetsFor`). -/
def targetsFor (shuffled employees : List Employee) (dutyDays : List DateKey) :
    TargetDistribution :=
  let _unused := shuffled
  targetList ((dutyDays.length / employees.length : Nat) : Int)
    ((dutyDays.length % employees.length : Nat) : Int) 0 employees

/-- The entry written for a `rest` override. -/
def restEntry (o : CustomProject) : Entry :=
  { type := Kind.rest, project := projectOrDefault o.project,
    employee := JSValue.null, assignedAt := none }

/-- The gaps `|actual - target|` of the roster entries from index `idx` on,
where the actual count of an entry is the number of Duty-kind assignments
given to it. -/
def deviationsFrom (target : TargetDistribution) (s : Schedule) :
    Nat → List Employee → List Int
  | _, [] => []
  | idx, emp :: rest =>
    |(assignedCount idx s : Int) - orZero (objGet target emp.id)|
      :: deviationsFrom target s (idx + 1) rest

/-- The true deviation of a schedule: the largest gap `|actual - target|`
over the roster. -/
def trueDeviation (employees : List Employee) (target : TargetDistribution)
    (s : Schedule) : Int :=
  (deviationsFrom target s 0 employees).foldl max 0

/-! ## Theorems -/

/-! ### Date arithmetic and the duty-day loop -/

theorem dayNumber_mono (a b : Dayjs) (h : a.ms ≤ b.ms) : a.dayNumber ≤ b.dayNumber := by
  unfold Dayjs.dayNumber msPerDay
  exact Int.ediv_le_ediv (by norm_num) h

theorem loop_condition_of_le (s e : Dayjs) (h : s.dayNumber ≤ e.dayNumber) :
    (s.isBefore e || s.isSame e) = true := by
  by_cases hlt : s.ms < e.ms
  · simp [Dayjs.isBefore, hlt]
  · have h2 : e.dayNumber ≤ s.dayNumber := dayNumber_mono e s (by omega)
    have h3 : s.dayNumber = e.dayNumber := by omega
    simp [Dayjs.isSame, h3]

theorem loop_condition_of_gt (s e : Dayjs) (h : e.dayNumber < s.dayNumber) :
    (s.isBefore e || s.isSame e) = false := by
  have h1 : ¬ s.ms < e.ms := by
    intro hlt
    have := dayNumber_mono s e (by omega)
    omega
  have h2 : ¬ s.dayNumber = e.dayNumber := by omega
  simp [Dayjs.isBefore, Dayjs.isSame, h1, h2]

theorem getDutyDaysLoop_stuck (holidays : List String) (sat sun : Bool) (s e : Dayjs)
    (h : s.dayNumber ≤ e.dayNumber) :
    ∀ (fuel : Nat) (days : List DateKey),
      getDutyDaysLoop holidays sat sun e fuel s days = none := by
  intro fuel
  induction fuel with
  | zero => intro days; rfl
  | succ n ih =>
    intro days
    simp only [getDutyDaysLoop, loop_condition_of_le s e h, if_true]
    exact ih _

theorem getDutyDays_reversed (holidays : List String) (sat sun : Bool) (s e : Dayjs)
    (h : e.dayNumber < s.dayNumber) (fuel : Nat) :
    getDutyDays holidays (fuel + 1) s e sat sun = some [] := by
  simp [getDutyDays, getDutyDaysLoop, loop_condition_of_gt s e h]

/-- The concrete dates used below: 2024-01-02 is day 19724, a Tuesday, and
formats as `'01-02'`; 2024-01-01 is a holiday of the built-in list. -/
theorem concrete_dates :
    ymd 2024 1 2 = 19724 ∧ Dayjs.civil (ymd 2024 1 2) = (2024, 1, 2) ∧
    (Dayjs.ofKey (ymd 2024 1 2)).day = 2 ∧
    (Dayjs.ofKey (ymd 2024 1 2)).formatMMDD = "01-02" ∧
    ((Dayjs.ofKey (ymd 2024 1 3)).subtract 1).format = ymd 2024 1 2 ∧
    isHoliday getDefaultHolidays (Dayjs.ofKey (ymd 2024 1 1)) = true ∧
    isHoliday getDefaultHolidays (Dayjs.ofKey (ymd 2024 1 2)) = false := by
  decide

/-- The loop of `CalendarView.getMonthDays`, which assigns the result of
`add` back, does return: over one day it yields that day. -/
theorem getMonthDaysLoop_returns :
    getMonthDaysLoop (Dayjs.ofKey (ymd 2024 1 2)) 2 (Dayjs.ofKey (ymd 2024 1 2)) []
      = some [Dayjs.ofKey (ymd 2024 1 2)] := by
  decide

/-- C1: with an empty roster `generateSchedule` throws
`Error('员工列表不能为空')` for every date range and configuration, and it does
so whatever number of loop iterations `getDutyDays` is allowed (none at all
included): the duty days are not computed and no attempt is run. -/
theorem generateSchedule_empty_roster (holidays : List String) (fuel : Nat)
    (ambient : Nat → Ambient) (shuffled : List Employee) (startDate endDate : Dayjs)
    (config : Config) :
    generateSchedule holidays fuel ambient shuffled [] startDate endDate config
      = some (.error (JSError.error "员工列表不能为空")) := by
  simp [generateSchedule]

/-- C3 (the code's behaviour): whenever the start day is not after the end
day, the loop of `getDutyDays` is still running after any number of
iterations: `current` is never advanced, so the method does not return. -/
theorem getDutyDays_never_returns (holidays : List String) (fuel : Nat)
    (startDate endDate : Dayjs) (includeSaturday includeSunday : Bool)
    (h : startDate.dayNumber ≤ endDate.dayNumber) :
    getDutyDays holidays fuel startDate endDate includeSaturday includeSunday = none :=
  getDutyDaysLoop_stuck holidays includeSaturday includeSunday startDate endDate h fuel []

/-- C3, at a concrete range: from 2024-01-01 to 2024-01-03 the method has
not returned after 1000 iterations. -/
theorem getDutyDays_never_returns_witness :
    (Dayjs.ofKey (ymd 2024 1 1)).dayNumber ≤ (Dayjs.ofKey (ymd 2024 1 3)).dayNumber ∧
    getDutyDays getDefaultHolidays 1000 (Dayjs.ofKey (ymd 2024 1 1))
      (Dayjs.ofKey (ymd 2024 1 3)) false false = none :=
  ⟨by decide, getDutyDays_never_returns _ _ _ _ _ _ (by decide)⟩

/-- C4 (the code's behaviour): for the one-day range 2024-01-02 (a Tuesday,
no holiday) the loop body would push that date, but `getDutyDays` returns no
list at all, whatever the number of iterations. -/
theorem getDutyDays_single_tuesday :
    dutyDaysBody getDefaultHolidays false false (Dayjs.ofKey (ymd 2024 1 2)) []
      = [ymd 2024 1 2] ∧
    ∀ fuel : Nat, getDutyDays getDefaultHolidays fuel (Dayjs.ofKey (ymd 2024 1 2))
      (Dayjs.ofKey (ymd 2024 1 2)) false false = none :=
  ⟨by decide, fun fuel =>
    getDutyDaysLoop_stuck _ _ _ _ _ (by decide) fuel []⟩

/-- C13 (the code's behaviour): for a non-empty roster and a date range
whose start day is not after its end day, `generateSchedule` runs no attempt
and returns no result, whatever `maxRetries` and however long it runs: it
calls `getDutyDays` first, whose loop never ends. -/
theorem generateSchedule_never_returns (holidays : List String) (fuel : Nat)
    (ambient : Nat → Ambient) (shuffled employees : List Employee)
    (startDate endDate : Dayjs) (config : Config)
    (hne : employees ≠ []) (hrange : startDate.dayNumber ≤ endDate.dayNumber) :
    generateSchedule holidays fuel ambient shuffled employees startDate endDate config
      = none := by
  have hlen : employees.length ≠ 0 := by
    intro h; exact hne (List.length_eq_zero.1 h)
  have hdays : getDutyDays holidays fuel startDate endDate config.includeSaturday
      config.includeSunday = none :=
    getDutyDaysLoop_stuck holidays _ _ startDate endDate hrange fuel []
  simp only [generateSchedule, hlen, if_false, hdays]

/-- C13, at a concrete input: the roster `[alice]`, the one-day range
2024-01-02 and the default configuration (`maxRetries = 10`): no result after
1000 iterations. -/
theorem generateSchedule_never_returns_witness :
    generateSchedule getDefaultHolidays 1000 (fun _ => calm) [] [alice]
      (Dayjs.ofKey (ymd 2024 1 2)) (Dayjs.ofKey (ymd 2024 1 2)) defaultConfig = none :=
  generateSchedule_never_returns _ _ _ _ _ _ _ _ (by decide) (by decide)

/-! ### Dictionaries -/

theorem objSet_fresh {κ α : Type} [DecidableEq κ] (o : List (κ × α)) (key : κ) (value : α)
    (h : key ∉ o.map Prod.fst) : objSet o key value = o ++ [(key, value)] := by
  induction o with
  | nil => rfl
  | cons a rest ih =>
    obtain ⟨k, v⟩ := a
    simp only [List.map_cons, List.mem_cons, not_or] at h
    have hk : ¬ k = key := fun hk => h.1 hk.symm
    simp [objSet, hk, ih h.2]

theorem objGet_append_fresh {κ α : Type} [DecidableEq κ] (o o2 : List (κ × α)) (key : κ)
    (h : key ∉ o.map Prod.fst) : objGet (o ++ o2) key = objGet o2 key := by
  induction o with
  | nil => rfl
  | cons a rest ih =>
    obtain ⟨k, v⟩ := a
    simp only [List.map_cons, List.mem_cons, not_or] at h
    have hk : ¬ k = key := fun hk => h.1 hk.symm
    simp [objGet, hk, ih h.2]

theorem objGet_none_of_fresh {κ α : Type} [DecidableEq κ] (o : List (κ × α)) (key : κ)
    (h : key ∉ o.map Prod.fst) : objGet o key = none := by
  induction o with
  | nil => rfl
  | cons a rest ih =>
    obtain ⟨k, v⟩ := a
    simp only [List.map_cons, List.mem_cons, not_or] at h
    have hk : ¬ k = key := fun hk => h.1 hk.symm
    simp [objGet, hk, ih h.2]

theorem objGet_objSet_same {κ α : Type} [DecidableEq κ] (o : List (κ × α)) (k : κ) (v : α) :
    objGet (objSet o k v) k = some v := by
  induction o with
  | nil => simp [objSet, objGet]
  | cons a rest ih =>
    obtain ⟨k1, v1⟩ := a
    by_cases h : k1 = k
    · simp [objSet, objGet, h]
    · simp [objSet, objGet, h, ih]

theorem objGet_objSet_other {κ α : Type} [DecidableEq κ] (o : List (κ × α)) (k k2 : κ)
    (v : α) (hne : k ≠ k2) : objGet (objSet o k v) k2 = objGet o k2 := by
  induction o with
  | nil => simp [objSet, objGet, hne]
  | cons a rest ih =>
    obtain ⟨k1, v1⟩ := a
    by_cases h : k1 = k
    · subst h; simp [objSet, objGet, hne]
    · by_cases h2 : k1 = k2
      · subst h2; simp [objSet, objGet, h]
      · simp [objSet, objGet, h, h2, ih]

theorem objGet_of_mem {κ α : Type} [DecidableEq κ] (o : List (κ × α))
    (hnd : (o.map Prod.fst).Nodup) (k : κ) (v : α) (h : (k, v) ∈ o) :
    objGet o k = some v := by
  induction o with
  | nil => simp at h
  | cons a rest ih =>
    obtain ⟨k1, v1⟩ := a
    simp only [List.map_cons, List.nodup_cons] at hnd
    rcases List.mem_cons.1 h with h1 | h1
    · simp only [Prod.mk.injEq] at h1
      simp [objGet, h1.1, h1.2]
    · have hne : ¬ k1 = k := by
        intro heq
        exact hnd.1 (heq ▸ List.mem_map_of_mem Prod.fst h1)
      simp [objGet, hne, ih hnd.2 h1]

theorem exists_entry_of_key {κ α : Type} (o : List (κ × α)) (k : κ)
    (h : k ∈ o.map Prod.fst) : ∃ v, (k, v) ∈ o := by
  obtain ⟨p, hp, hk⟩ := List.mem_map.1 h
  exact ⟨p.2, by rw [← hk]; exact hp⟩

/-! ### What the `employee` slot holds -/

/-- C7 (the code's behaviour): for the roster `[alice]`, the single duty day
2024-01-02 and the target `{'1': 1}`, the entry `trySchedule` writes holds
the queue record itself (an object) in its `employee` slot; that value is not
strictly equal to the id `'1'`, and the personal filter of the application
finds no date for `alice`.  An object is never `===` to an id string. -/
theorem trySchedule_employee_is_record :
    trySchedule calm [ymd 2024 1 2] [alice] oneForAlice []
      = .ok [(ymd 2024 1 2, { type := Kind.duty, project := "日常值班",
                              employee := JSValue.object 0, assignedAt := some 0 })] ∧
    strictEquals (JSValue.object 0) (JSValue.string alice.id) = false ∧
    filterPersonalSchedule
      [(ymd 2024 1 2, { type := Kind.duty, project := "日常值班",
                        employee := JSValue.object 0, assignedAt := some 0 })] alice = [] ∧
    ∀ (ref : Nat) (id : String),
      strictEquals (JSValue.object ref) (JSValue.string id) = false :=
  ⟨by decide, by decide, by decide, fun _ _ => rfl⟩

/-- C8 (the code's behaviour): on the schedule `trySchedule` returns for
`[alice]` and one duty day, which assigns that day to `alice`,
`generateStats` reports count 0 for `alice`: the lookup `stats[item.employee]`
uses the key `'[object Object]'` and finds nothing. -/
theorem generateStats_counts_nothing :
    trySchedule calm [ymd 2024 1 2] [alice] oneForAlice []
      = .ok [(ymd 2024 1 2, { type := Kind.duty, project := "日常值班",
                              employee := JSValue.object 0, assignedAt := some 0 })] ∧
    generateStats
      (some [(ymd 2024 1 2, { type := Kind.duty, project := "日常值班",
                              employee := JSValue.object 0, assignedAt := some 0 })]) [alice]
      = .ok [("1", { name := "A", count := 0 })] :=
  ⟨by decide, by decide⟩

/-- C9 (the code's behaviour): roster `[alice, bob]`, four consecutive
weekdays, targets 2 and 2, draws 0 then 0.9.  After the first day the queue
holds `bob` with `remaining = 2` and `alice` with `remaining = 1`; the second
day is given to `alice` again, the day after her first, although `bob` has
quota left. -/
theorem trySchedule_repeats_participant :
    (∃ st, scheduleDays lateDraws [] (initialState [alice, bob] twoEach) [ymd 2024 1 2]
        = .ok st ∧
      st.schedule.map (fun p => p.2.employee) = [JSValue.object 0] ∧
      st.queue.map (fun r => (r.ref, r.remaining)) = [(1, some 2), (0, some 1)]) ∧
    (∃ s, trySchedule lateDraws fourDays [alice, bob] twoEach [] = .ok s ∧
      s.map (fun p => (p.1, p.2.employee))
        = [(ymd 2024 1 2, JSValue.object 0), (ymd 2024 1 3, JSValue.object 0),
           (ymd 2024 1 4, JSValue.object 1), (ymd 2024 1 5, JSValue.object 1)]) :=
  ⟨⟨_, rfl, by decide, by decide⟩, ⟨_, rfl, by decide⟩⟩

/-! ### The target distribution -/

theorem targetList_keys (b r : Int) (employees : List Employee) :
    ∀ idx : Nat, (targetList b r idx employees).map Prod.fst = employees.map (fun e => e.id) := by
  induction employees with
  | nil => intro idx; rfl
  | cons e rest ih => intro idx; simp [targetList, ih]

theorem dictSet_of_ne {α : Type} (o : List (String × α)) (key : String) (value : α)
    (h : key ≠ "__proto__") : dictSet o key value = objSet o key value := by
  simp [dictSet, h]

theorem dictGet_of_own {α : Type} (o : List (String × α)) (key : String) (v : α)
    (h : objGet o key = some v) : dictGet o key = Slot.own v := by
  simp [dictGet, h]

theorem slotNumber_dictGet (o : List (String × Int)) (key : String) :
    slotNumber (dictGet o key) = objGet o key := by
  unfold dictGet
  cases objGet o key with
  | some v => rfl
  | none => dsimp only; split <;> rfl

theorem assignTargets_eq_targetList (b r : Int) (employees : List Employee) :
    ∀ (idx : Nat) (acc : TargetDistribution),
      (employees.map (fun e => e.id)).Nodup →
      (∀ e ∈ employees, e.id ≠ "__proto__") →
      (∀ e ∈ employees, e.id ∉ acc.map Prod.fst) →
      assignTargets b r idx employees acc = acc ++ targetList b r idx employees := by
  induction employees with
  | nil => intro idx acc _ _ _; simp [assignTargets, targetList]
  | cons e rest ih =>
    intro idx acc hnd hproto hfresh
    simp only [List.map_cons, List.nodup_cons] at hnd
    have he : e.id ∉ acc.map Prod.fst := hfresh e (List.mem_cons_self _ _)
    simp only [assignTargets, targetList]
    rw [dictSet_of_ne acc e.id _ (hproto e (List.mem_cons_self _ _)),
      objSet_fresh acc e.id _ he,
      ih (idx + 1) _ hnd.2 (fun x hx => hproto x (List.mem_cons_of_mem _ hx))]
    · simp
    · intro x hx
      simp only [List.map_append, List.map_cons, List.map_nil, List.mem_append,
        List.mem_singleton, not_or]
      refine ⟨hfresh x (List.mem_cons_of_mem _ hx), ?_⟩
      intro hxe
      exact hnd.1 (hxe ▸ List.mem_map_of_mem (fun e => e.id) hx)

theorem calculateTargetDistribution_eq (shuffled employees : List Employee) (b r : Int)
    (hnd : (employees.map (fun e => e.id)).Nodup)
    (hproto : ∀ e ∈ employees, e.id ≠ "__proto__") :
    calculateTargetDistribution shuffled employees b r = targetList b r 0 employees := by
  unfold calculateTargetDistribution
  simpa using assignTargets_eq_targetList b r employees 0 [] hnd hproto (by simp)

theorem calculateTargetDistribution_eq_targetsFor (shuffled employees : List Employee)
    (dutyDays : List DateKey) (hnd : (employees.map (fun e => e.id)).Nodup)
    (hproto : ∀ e ∈ employees, e.id ≠ "__proto__") :
    calculateTargetDistribution shuffled employees
        ((dutyDays.length / employees.length : Nat) : Int)
        ((dutyDays.length % employees.length : Nat) : Int)
      = targetsFor shuffled employees dutyDays :=
  calculateTargetDistribution_eq shuffled employees _ _ hnd hproto

theorem targetList_get (b r : Int) (employees : List Employee) :
    ∀ (idx i : Nat) (h : i < employees.length),
      (employees.map (fun e => e.id)).Nodup →
      objGet (targetList b r idx employees) (employees.get ⟨i, h⟩).id
        = some (b + (if ((idx + i : Nat) : Int) < r then 1 else 0)) := by
  induction employees with
  | nil => intro idx i h; simp at h
  | cons e rest ih =>
    intro idx i h hnd
    simp only [List.map_cons, List.nodup_cons] at hnd
    cases i with
    | zero => simp [targetList, objGet]
    | succ j =>
      have hj : j < rest.length := by simpa using h
      have hne : ¬ e.id = (rest.get ⟨j, hj⟩).id := by
        intro heq
        exact hnd.1 (heq ▸ List.mem_map_of_mem (fun e => e.id) (List.get_mem rest j hj))
      have := ih (idx + 1) j hj hnd.2
      simp only [targetList, objGet, List.get_cons_succ, hne, if_false]
      rw [this]
      have : idx + 1 + j = idx + (j + 1) := by omega
      rw [this]

theorem targetList_values (b r : Int) (employees : List Employee) :
    ∀ (idx : Nat), ∀ p ∈ targetList b r idx employees, p.2 = b ∨ p.2 = b + 1 := by
  induction employees with
  | nil => intro idx p hp; simp [targetList] at hp
  | cons e rest ih =>
    intro idx p hp
    simp only [targetList, List.mem_cons] at hp
    rcases hp with h | h
    · subst h
      by_cases hc : (idx : Int) < r <;> simp [hc]
    · exact ih (idx + 1) p h

theorem targetList_sum (b : Int) (r : Nat) (employees : List Employee) :
    ∀ (idx : Nat),
      ((targetList b (r : Int) idx employees).map Prod.snd).sum
        = (employees.length : Int) * b
          + (((min r (idx + employees.length) - min r idx : Nat)) : Int) := by
  induction employees with
  | nil => intro idx; simp [targetList]
  | cons e rest ih =>
    intro idx
    simp only [targetList, List.map_cons, List.sum_cons, ih (idx + 1), List.length_cons]
    by_cases hc : idx < r
    · have hc2 : (idx : Int) < (r : Int) := by exact_mod_cast hc
      simp only [hc2, if_true]
      have : ((min r (idx + (rest.length + 1)) - min r idx : Nat) : Int)
          = ((min r (idx + 1 + rest.length) - min r (idx + 1) : Nat) : Int) + 1 := by
        omega
      rw [this]; push_cast; ring
    · have hc2 : ¬ (idx : Int) < (r : Int) := by exact_mod_cast hc
      simp only [hc2, if_false]
      have : ((min r (idx + (rest.length + 1)) - min r idx : Nat) : Int)
          = ((min r (idx + 1 + rest.length) - min r (idx + 1) : Nat) : Int) := by
        omega
      rw [this]; push_cast; ring

theorem targetList_sum_total (T : Nat) (employees : List Employee) (hne : employees ≠ []) :
    ((targetList ((T / employees.length : Nat) : Int) ((T % employees.length : Nat) : Int) 0
        employees).map Prod.snd).sum = (T : Int) := by
  have hpos : 0 < employees.length := List.length_pos.2 hne
  rw [targetList_sum]
  have hlt : T % employees.length < employees.length := Nat.mod_lt _ hpos
  have h1 : min (T % employees.length) (0 + employees.length) - min (T % employees.length) 0
      = T % employees.length := by omega
  rw [h1]
  have := Nat.div_add_mod T employees.length
  have h2 : ((employees.length * (T / employees.length) + T % employees.length : Nat) : Int)
      = (T : Int) := by rw [this]
  rw [Nat.cast_add, Nat.cast_mul] at h2
  linarith

/-- C5 (the code's behaviour at a concrete input): for the roster with the
ids `'__proto__'` and `'1'` and three duty days, the write
`distribution['__proto__'] = 2` creates no property: the method returns
`{'1': 1}`, the first participant has no target of its own (the read finds
the inherited prototype) and the targets sum to 1, not 3. -/
theorem calculateTargetDistribution_proto_id :
    calculateTargetDistribution [] [protoEmployee, alice]
        ((3 / [protoEmployee, alice].length : Nat) : Int)
        ((3 % [protoEmployee, alice].length : Nat) : Int) = [("1", 1)] ∧
    dictGet (calculateTargetDistribution [] [protoEmployee, alice]
        ((3 / [protoEmployee, alice].length : Nat) : Int)
        ((3 % [protoEmployee, alice].length : Nat) : Int)) protoEmployee.id
      = Slot.inherited ∧
    ((calculateTargetDistribution [] [protoEmployee, alice]
        ((3 / [protoEmployee, alice].length : Nat) : Int)
        ((3 % [protoEmployee, alice].length : Nat) : Int)).map Prod.snd).sum = 1 := by
  decide

/-- C5, amended: for a non-empty roster with pairwise distinct ids none of
which is `'__proto__'`, and `T` duty days,
`calculateTargetDistribution(employees, floor(T/N), T mod N)` has exactly the
roster ids as own keys, and a read of the id of the participant at position
`i` finds the target `floor(T/N) + 1` when `i < T mod N` and `floor(T/N)`
otherwise, whatever the shuffled copy is; the targets sum to `T` and any two
of them differ by at most 1. -/
theorem calculateTargetDistribution_spec (shuffled employees : List Employee) (T : Nat)
    (hne : employees ≠ []) (hid : (employees.map (fun e => e.id)).Nodup)
    (hproto : ∀ e ∈ employees, e.id ≠ "__proto__") :
    ((calculateTargetDistribution shuffled employees
        ((T / employees.length : Nat) : Int) ((T % employees.length : Nat) : Int)).map
        Prod.fst).Perm (employees.map (fun e => e.id)) ∧
    (∀ (i : Nat) (h : i < employees.length),
      dictGet (calculateTargetDistribution shuffled employees
          ((T / employees.length : Nat) : Int) ((T % employees.length : Nat) : Int))
        (employees.get ⟨i, h⟩).id
        = Slot.own (((T / employees.length : Nat) : Int)
            + (if i < T % employees.length then 1 else 0))) ∧
    ((calculateTargetDistribution shuffled employees
        ((T / employees.length : Nat) : Int) ((T % employees.length : Nat) : Int)).map
        Prod.snd).sum = (T : Int) ∧
    (∀ p ∈ calculateTargetDistribution shuffled employees
        ((T / employees.length : Nat) : Int) ((T % employees.length : Nat) : Int),
      ∀ q ∈ calculateTargetDistribution shuffled employees
        ((T / employees.length : Nat) : Int) ((T % employees.length : Nat) : Int),
      p.2 ≤ q.2 + 1) := by
  rw [calculateTargetDistribution_eq shuffled employees _ _ hid hproto]
  refine ⟨by rw [targetList_keys], ?_, targetList_sum_total T employees hne, ?_⟩
  · intro i h
    apply dictGet_of_own
    rw [targetList_get _ _ employees 0 i h hid]
    congr 2
    simp only [Nat.zero_add]
    by_cases hc : i < T % employees.length
    · have : (i : Int) < ((T % employees.length : Nat) : Int) := by exact_mod_cast hc
      rw [if_pos hc, if_pos this]
    · have : ¬ (i : Int) < ((T % employees.length : Nat) : Int) := by exact_mod_cast hc
      rw [if_neg hc, if_neg this]
  · intro p hp q hq
    rcases targetList_values _ _ employees 0 p hp with h1 | h1 <;>
    rcases targetList_values _ _ employees 0 q hq with h2 | h2 <;>
    omega

/-- C5, amended, at a concrete input: the roster `[alice, bob]` and
`T = 5`. -/
theorem calculateTargetDistribution_spec_witness :
    ((calculateTargetDistribution [bob, alice] [alice, bob]
        ((5 / [alice, bob].length : Nat) : Int) ((5 % [alice, bob].length : Nat) : Int)).map
        Prod.fst).Perm ([alice, bob].map (fun e => e.id)) ∧
    (∀ (i : Nat) (h : i < [alice, bob].length),
      dictGet (calculateTargetDistribution [bob, alice] [alice, bob]
          ((5 / [alice, bob].length : Nat) : Int) ((5 % [alice, bob].length : Nat) : Int))
        ([alice, bob].get ⟨i, h⟩).id
        = Slot.own (((5 / [alice, bob].length : Nat) : Int)
            + (if i < 5 % [alice, bob].length then 1 else 0))) ∧
    ((calculateTargetDistribution [bob, alice] [alice, bob]
        ((5 / [alice, bob].length : Nat) : Int) ((5 % [alice, bob].length : Nat) : Int)).map
        Prod.snd).sum = ((5 : Nat) : Int) ∧
    (∀ p ∈ calculateTargetDistribution [bob, alice] [alice, bob]
        ((5 / [alice, bob].length : Nat) : Int) ((5 % [alice, bob].length : Nat) : Int),
      ∀ q ∈ calculateTargetDistribution [bob, alice] [alice, bob]
        ((5 / [alice, bob].length : Nat) : Int) ((5 % [alice, bob].length : Nat) : Int),
      p.2 ≤ q.2 + 1) :=
  calculateTargetDistribution_spec [bob, alice] [alice, bob] 5 (by decide) (by decide)
    (by decide)

/-! ### A reversed date range -/

theorem objSet_forall {α : Type} (P : String × α → Prop) (o : List (String × α))
    (key : String) (value : α) (hnew : P (key, value)) (h : ∀ p ∈ o, P p) :
    ∀ p ∈ objSet o key value, P p := by
  induction o with
  | nil => intro p hp; simp [objSet] at hp; rw [hp]; exact hnew
  | cons a rest ih =>
    obtain ⟨k, v⟩ := a
    intro p hp
    simp only [objSet] at hp
    split at hp
    · rename_i hk
      rcases List.mem_cons.1 hp with h1 | h1
      · rw [h1, hk]; exact hnew
      · exact h p (List.mem_cons_of_mem _ h1)
    · rcases List.mem_cons.1 hp with h1 | h1
      · exact h p (by rw [h1]; exact List.mem_cons_self _ _)
      · exact ih (fun q hq => h q (List.mem_cons_of_mem _ hq)) p h1

theorem dictSet_forall {α : Type} (P : String × α → Prop) (o : List (String × α))
    (key : String) (value : α) (hnew : P (key, value)) (h : ∀ p ∈ o, P p) :
    ∀ p ∈ dictSet o key value, P p := by
  unfold dictSet
  split
  · exact h
  · exact objSet_forall P o key value hnew h

theorem assignTargets_all_zero (employees : List Employee)
    (hids : ∀ e ∈ employees, e.id ∉ objectPrototypeMembers) :
    ∀ (idx : Nat) (dist : TargetDistribution),
      (∀ p ∈ dist, p.2 = 0 ∧ p.1 ∉ objectPrototypeMembers) →
      ∀ p ∈ assignTargets 0 0 idx employees dist,
        p.2 = 0 ∧ p.1 ∉ objectPrototypeMembers := by
  induction employees with
  | nil => intro idx dist h; simpa [assignTargets] using h
  | cons e rest ih =>
    intro idx dist h
    simp only [assignTargets]
    apply ih (fun x hx => hids x (List.mem_cons_of_mem _ hx))
    have hz : ((0 : Int) + if (idx : Int) < 0 then 1 else 0) = 0 := by
      have : ¬ ((idx : Int) < 0) := by omega
      simp [this]
    rw [hz]
    exact dictSet_forall _ dist e.id 0 ⟨rfl, hids e (List.mem_cons_self _ _)⟩ h

theorem objEntries_perm {α : Type} (o : List (String × α)) : (objEntries o).Perm o := by
  unfold objEntries
  have h1 := List.perm_insertionSort (@indexOrder α)
    (o.filter (fun p => (arrayIndex? p.1).isSome))
  have h2 := List.filter_append_perm (fun p : String × α => (arrayIndex? p.1).isSome) o
  exact (h1.append_right _).trans h2

theorem maxDeviation_all_zero (entries : List (String × Int))
    (h : ∀ p ∈ entries, p.2 = 0 ∧ p.1 ∉ objectPrototypeMembers) :
    maxDeviation [] entries (some 0) = some 0 := by
  induction entries with
  | nil => rfl
  | cons a rest ih =>
    obtain ⟨k, v⟩ := a
    obtain ⟨hv, hk⟩ := h (k, v) (List.mem_cons_self _ _)
    simp only at hv hk
    subst hv
    have hget : dictGet ([] : List (String × Count)) k = Slot.undefined := by
      simp [dictGet, objGet, hk]
    simp only [maxDeviation, hget, actualCount, jsSub, jsAbs, jsMax]
    simpa using ih (fun q hq => h q (List.mem_cons_of_mem _ hq))

theorem mem_of_objGet {κ α : Type} [DecidableEq κ] (o : List (κ × α)) (k : κ) (v : α)
    (h : objGet o k = some v) : (k, v) ∈ o := by
  induction o with
  | nil => simp [objGet] at h
  | cons a rest ih =>
    obtain ⟨k1, v1⟩ := a
    simp only [objGet] at h
    split at h
    · rename_i hk
      simp only [Option.some.injEq] at h
      rw [← hk, ← h]; exact List.mem_cons_self _ _
    · exact List.mem_cons_of_mem _ (ih h)

theorem initStats_counts (employees : List Employee)
    (hproto : ∀ e ∈ employees, e.id ≠ "__proto__") :
    ∀ (st : StatsObject),
      (∀ p ∈ st.own, p.2.count = 0) →
      (∀ p ∈ (initStats employees st).own, p.2.count = 0) ∧
      (∀ k, (objGet st.own k).isSome = true →
        (objGet (initStats employees st).own k).isSome = true) ∧
      (∀ e ∈ employees, (objGet (initStats employees st).own e.id).isSome = true) := by
  induction employees with
  | nil => intro st h; exact ⟨h, fun _ hk => hk, by simp⟩
  | cons e rest ih =>
    intro st h
    have he : e.id ≠ "__proto__" := hproto e (List.mem_cons_self _ _)
    simp only [initStats, he, if_false]
    have hzero : ∀ p ∈ objSet st.own e.id ({ name := e.name, count := 0 } : Stat),
        p.2.count = 0 :=
      objSet_forall (fun p => p.2.count = 0) st.own e.id _ rfl h
    obtain ⟨h1, h2, h3⟩ := ih (fun x hx => hproto x (List.mem_cons_of_mem _ hx))
      { st with own := objSet st.own e.id { name := e.name, count := 0 } } hzero
    refine ⟨h1, ?_, ?_⟩
    · intro k hk
      apply h2
      by_cases hke : e.id = k
      · subst hke; simp [objGet_objSet_same]
      · simpa [objGet_objSet_other _ _ _ _ hke] using hk
    · intro x hx
      rcases List.mem_cons.1 hx with hxe | hxe
      · subst hxe
        apply h2
        simp [objGet_objSet_same]
      · exact h3 x hxe

/-- C2 (the code's behaviour at a concrete input): for the roster `[alice]`
and the range from 2024-01-05 back to 2024-01-01, `generateSchedule` throws
nothing and returns a balanced result that carries an empty schedule. -/
theorem generateSchedule_reversed_range_example :
    generateSchedule getDefaultHolidays 1 (fun _ => calm) [] [alice]
      (Dayjs.ofKey (ymd 2024 1 5)) (Dayjs.ofKey (ymd 2024 1 1)) defaultConfig
      = some (.ok { schedule := [], stats := [("1", { name := "A", count := 0 })],
                    isBalanced := true, retryCount := some 1, warning := none }) := by
  decide

/-- The side condition of the amended C2 is needed: for the roster whose only
id is `'constructor'` and the same reversed range, every attempt scores `NaN`
(the read `actual['constructor']` finds the inherited function), no attempt is
kept, and `generateStats(null, ...)` raises a `TypeError`. -/
theorem generateSchedule_reversed_range_constructor :
    generateSchedule getDefaultHolidays 1 (fun _ => calm) [] [ctorEmployee]
      (Dayjs.ofKey (ymd 2024 1 5)) (Dayjs.ofKey (ymd 2024 1 1)) defaultConfig
      = some (.error JSError.typeError) := by
  decide

/-- C2, amended: for every non-empty roster none of whose ids is the name of
a member of `Object.prototype` (`'constructor'`, `'toString'`, `'__proto__'`,
...), every date range whose end day is before its start day and every
configuration with `maxRetries >= 1`, `generateSchedule` returns, after one
evaluation of the loop test of `getDutyDays`, a result with an empty
schedule, a statistics record with count 0 under the id of every roster
participant and no other count, `isBalanced = true` and `retryCount = 1`; no
error is raised. -/
theorem generateSchedule_reversed_range (holidays : List String) (fuel : Nat)
    (ambient : Nat → Ambient) (shuffled employees : List Employee)
    (startDate endDate : Dayjs) (config : Config)
    (hne : employees ≠ [])
    (hids : ∀ e ∈ employees, e.id ∉ objectPrototypeMembers)
    (hrange : endDate.dayNumber < startDate.dayNumber)
    (hretry : 1 ≤ config.maxRetries) :
    ∃ stats : Stats,
      generateSchedule holidays (fuel + 1) ambient shuffled employees startDate endDate config
        = some (.ok { schedule := [], stats := stats,
                      isBalanced := true, retryCount := some 1, warning := none }) ∧
      (∀ e ∈ employees, ∃ st, dictGet stats e.id = Slot.own st ∧ st.count = 0) ∧
      (∀ p ∈ stats, p.2.count = 0) := by
  have hlen : employees.length ≠ 0 := by
    intro h; exact hne (List.length_eq_zero.1 h)
  obtain ⟨m, hm⟩ : ∃ m, config.maxRetries = m + 1 := ⟨config.maxRetries - 1, by omega⟩
  have hproto : ∀ e ∈ employees, e.id ≠ "__proto__" := by
    intro e he heq
    exact hids e he (by rw [heq]; decide)
  have hvar : calculateVariance []
      (calculateTargetDistribution shuffled employees 0 0) = some 0 := by
    unfold calculateVariance calculateTargetDistribution
    simp only [countActual]
    apply maxDeviation_all_zero
    intro p hp
    exact assignTargets_all_zero employees hids 0 [] (by simp) p
      ((objEntries_perm _).mem_iff.1 hp)
  obtain ⟨h1, _, h3⟩ := initStats_counts employees hproto { own := [], proto := none }
    (by intro p hp; simp at hp)
  refine ⟨(initStats employees { own := [], proto := none }).own, ?_, ?_, h1⟩
  · simp only [generateSchedule, hlen, if_false,
      getDutyDays_reversed holidays _ _ startDate endDate hrange fuel, List.length_nil,
      Nat.zero_div, Nat.zero_mod, Nat.cast_zero]
    rw [hm]
    simp [retryLoop, trySchedule, scheduleDays, initialState, hvar, generateStats, countStats]
  · intro e he
    have hsome := h3 e he
    cases hget : objGet (initStats employees { own := [], proto := none }).own e.id with
    | none => rw [hget] at hsome; simp at hsome
    | some st =>
      exact ⟨st, dictGet_of_own _ _ _ hget, h1 (e.id, st) (mem_of_objGet _ _ _ hget)⟩

/-- C2, amended, at a concrete input: the roster `[alice, bob]`, the range
from 2024-03-10 back to 2024-03-01 and the default configuration. -/
theorem generateSchedule_reversed_range_witness :
    ∃ stats : Stats,
      generateSchedule getDefaultHolidays (0 + 1) (fun _ => calm) [] [alice, bob]
        (Dayjs.ofKey (ymd 2024 3 10)) (Dayjs.ofKey (ymd 2024 3 1)) defaultConfig
        = some (.ok { schedule := [], stats := stats,
                      isBalanced := true, retryCount := some 1, warning := none }) ∧
      (∀ e ∈ [alice, bob], ∃ st, dictGet stats e.id = Slot.own st ∧ st.count = 0) ∧
      (∀ p ∈ stats, p.2.count = 0) :=
  generateSchedule_reversed_range _ 0 _ _ _ _ _ _ (by decide) (by decide) (by decide)
    (by decide)

/-! ### The queue -/

theorem sortQueue_perm (q : List QueueRecord) : (sortQueue q).Perm q :=
  List.perm_insertionSort keepsOrder q

theorem totalRemaining_perm {q1 q2 : List QueueRecord} (h : q1.Perm q2) :
    totalRemaining q1 = totalRemaining q2 :=
  (h.map _).sum_eq

theorem exists_pos_of_total_pos (q : List QueueRecord) (h : 0 < totalRemaining q) :
    ∃ r ∈ q, 0 < orZero r.remaining := by
  induction q with
  | nil => simp [totalRemaining] at h
  | cons a rest ih =>
    by_cases ha : 0 < orZero a.remaining
    · exact ⟨a, List.mem_cons_self _ _, ha⟩
    · have : 0 < totalRemaining rest := by
        simp only [totalRemaining, List.map_cons, List.sum_cons] at h ⊢
        omega
      obtain ⟨r, hr, hpos⟩ := ih this
      exact ⟨r, List.mem_cons_of_mem _ hr, hpos⟩

theorem pickLoop_mem (den : Nat) (cands : List QueueRecord) :
    ∀ (random : JSNum) (emp : QueueRecord),
      pickLoop den random cands = some emp → emp ∈ cands := by
  induction cands with
  | nil => intro random emp h; simp [pickLoop] at h
  | cons c rest ih =>
    intro random emp h
    simp only [pickLoop] at h
    split at h
    · simp only [Option.some.injEq] at h
      subst h; exact List.mem_cons_self _ _
    · exact List.mem_cons_of_mem _ (ih _ _ h)

theorem selectEmployee_some (draw : Draw) (q : List QueueRecord) (date : DateKey)
    (schedule : Schedule)
    (hnn : ∀ r ∈ q, ∃ n : Int, r.remaining = some n ∧ 0 ≤ n)
    (hpos : 0 < totalRemaining q) :
    ∃ emp, selectEmployee draw q date schedule = some emp ∧ emp ∈ q ∧
      ∃ n : Int, emp.remaining = some n ∧ 0 < n := by
  have key : ∀ cands : List QueueRecord, cands ≠ [] →
      (∀ e ∈ cands, e ∈ q ∧ ∃ n : Int, e.remaining = some n ∧ 0 < n) →
      ∃ emp, (match pickLoop draw.den
            (jsScale draw.num (cands.foldl (fun sum emp => jsAdd sum emp.remaining) (some 0)))
            cands with
          | some emp => some emp
          | none => cands.head?) = some emp ∧ emp ∈ q ∧
        ∃ n : Int, emp.remaining = some n ∧ 0 < n := by
    intro cands hne hall
    cases hp : pickLoop draw.den
        (jsScale draw.num (cands.foldl (fun sum emp => jsAdd sum emp.remaining) (some 0)))
        cands with
    | some emp =>
      have hm := pickLoop_mem _ _ _ _ hp
      exact ⟨emp, rfl, (hall emp hm).1, (hall emp hm).2⟩
    | none =>
      cases cands with
      | nil => exact absurd rfl hne
      | cons c rest =>
        exact ⟨c, rfl, (hall c (List.mem_cons_self _ _)).1, (hall c (List.mem_cons_self _ _)).2⟩
  unfold selectEmployee
  simp only []
  by_cases hav : (q.filter (isAvailable date schedule)).length > 0
  · rw [if_pos hav]
    apply key
    · intro h; rw [h] at hav; simp at hav
    · intro e he
      obtain ⟨heq, hae⟩ := List.mem_filter.1 he
      refine ⟨heq, ?_⟩
      obtain ⟨n, hn, _⟩ := hnn e heq
      refine ⟨n, hn, ?_⟩
      by_contra hle
      have : jsLe e.remaining (some 0) = true := by
        rw [hn]; simp only [jsLe, decide_eq_true_eq]; omega
      simp [isAvailable, this] at hae
  · rw [if_neg hav]
    apply key
    · obtain ⟨r, hr, hrpos⟩ := exists_pos_of_total_pos q hpos
      obtain ⟨n, hn, _⟩ := hnn r hr
      intro h
      have : r ∈ q.filter (fun emp => jsGt emp.remaining (some 0)) := by
        apply List.mem_filter.2
        refine ⟨hr, ?_⟩
        rw [hn] at hrpos ⊢
        simpa [jsGt, orZero] using hrpos
      rw [h] at this
      simp at this
    · intro e he
      obtain ⟨heq, hae⟩ := List.mem_filter.1 he
      refine ⟨heq, ?_⟩
      obtain ⟨n, hn, _⟩ := hnn e heq
      refine ⟨n, hn, ?_⟩
      rw [hn] at hae
      simpa [jsGt] using hae

theorem decrementFirst_skel (id : String) (q : List QueueRecord) :
    (decrementFirst id q).map skel = q.map skel := by
  induction q with
  | nil => rfl
  | cons a rest ih =>
    simp only [decrementFirst]
    split
    · simp [skel]
    · simp [ih]

theorem decrementFirst_total (id : String) (q : List QueueRecord)
    (hsome : ∀ r ∈ q, ∃ n : Int, r.remaining = some n)
    (hex : ∃ r ∈ q, r.id = id) :
    totalRemaining (decrementFirst id q) = totalRemaining q - 1 := by
  induction q with
  | nil => obtain ⟨r, hr, _⟩ := hex; simp at hr
  | cons a rest ih =>
    simp only [decrementFirst]
    split
    · obtain ⟨n, hn⟩ := hsome a (List.mem_cons_self _ _)
      simp only [totalRemaining, List.map_cons, List.sum_cons, hn, jsSub, orZero]
      omega
    · rename_i hne
      have hex2 : ∃ r ∈ rest, r.id = id := by
        obtain ⟨r, hr, hrid⟩ := hex
        rcases List.mem_cons.1 hr with h | h
        · subst h; exact absurd hrid hne
        · exact ⟨r, h, hrid⟩
      have := ih (fun r hr => hsome r (List.mem_cons_of_mem _ hr)) hex2
      simp only [totalRemaining, List.map_cons, List.sum_cons] at this ⊢
      omega

theorem decrementFirst_mem (id : String) (q : List QueueRecord)
    (hnd : (q.map (fun r => r.id)).Nodup) :
    ∀ r1 ∈ decrementFirst id q, ∃ r ∈ q,
      (r.id = id ∧ r1 = { r with remaining := jsSub r.remaining (some 1) }) ∨
      (r.id ≠ id ∧ r1 = r) := by
  induction q with
  | nil => intro r1 h; simp [decrementFirst] at h
  | cons a rest ih =>
    simp only [List.map_cons, List.nodup_cons] at hnd
    intro r1 h
    simp only [decrementFirst] at h
    split at h
    · rename_i heq
      rcases List.mem_cons.1 h with h1 | h1
      · exact ⟨a, List.mem_cons_self _ _, Or.inl ⟨heq, h1⟩⟩
      · refine ⟨r1, List.mem_cons_of_mem _ h1, Or.inr ⟨?_, rfl⟩⟩
        intro hr1
        apply hnd.1
        rw [heq, ← hr1]
        exact List.mem_map_of_mem (fun r => r.id) h1
    · rename_i hne
      rcases List.mem_cons.1 h with h1 | h1
      · exact ⟨a, List.mem_cons_self _ _, Or.inr ⟨hne, h1⟩⟩
      · obtain ⟨r, hr, hcase⟩ := ih hnd.2 r1 h1
        exact ⟨r, List.mem_cons_of_mem _ hr, hcase⟩

theorem updateQueue_skel (q : List QueueRecord) (id : String) :
    ((updateQueue q id).map skel).Perm (q.map skel) := by
  have h := (sortQueue_perm (decrementFirst id q)).map skel
  rwa [decrementFirst_skel] at h

theorem updateQueue_total (q : List QueueRecord) (id : String)
    (hsome : ∀ r ∈ q, ∃ n : Int, r.remaining = some n)
    (hex : ∃ r ∈ q, r.id = id) :
    totalRemaining (updateQueue q id) = totalRemaining q - 1 := by
  unfold updateQueue
  rw [totalRemaining_perm (sortQueue_perm _), decrementFirst_total id q hsome hex]

theorem updateQueue_mem (q : List QueueRecord) (id : String)
    (hnd : (q.map (fun r => r.id)).Nodup) :
    ∀ r1 ∈ updateQueue q id, ∃ r ∈ q,
      (r.id = id ∧ r1 = { r with remaining := jsSub r.remaining (some 1) }) ∨
      (r.id ≠ id ∧ r1 = r) := by
  intro r1 h
  exact decrementFirst_mem id q hnd r1 ((sortQueue_perm _).mem_iff.1 h)

/-! ### The unchanging part of the queue -/

theorem createRecords_skel (target : TargetDistribution) (employees : List Employee) :
    ∀ idx : Nat, (createRecords target idx employees).map skel = skeletonFrom idx employees := by
  induction employees with
  | nil => intro idx; rfl
  | cons e rest ih => intro idx; simp [createRecords, skeletonFrom, skel, ih]

theorem createRecords_remaining (target : TargetDistribution) (employees : List Employee) :
    ∀ idx : Nat, (createRecords target idx employees).map (fun r => r.remaining)
      = employees.map (fun e => objGet target e.id) := by
  induction employees with
  | nil => intro idx; rfl
  | cons e rest ih => intro idx; simp [createRecords, ih, slotNumber_dictGet]

theorem createRecords_mem (target : TargetDistribution) (employees : List Employee) :
    ∀ (idx : Nat), ∀ r ∈ createRecords target idx employees,
      r.remaining = objGet target r.id ∧ ∃ e ∈ employees, r.id = e.id := by
  induction employees with
  | nil => intro idx r h; simp [createRecords] at h
  | cons e rest ih =>
    intro idx r h
    simp only [createRecords, List.mem_cons] at h
    rcases h with h | h
    · subst h; exact ⟨slotNumber_dictGet _ _, e, List.mem_cons_self _ _, rfl⟩
    · obtain ⟨h1, e2, he2, h2⟩ := ih (idx + 1) r h
      exact ⟨h1, e2, List.mem_cons_of_mem _ he2, h2⟩

theorem skeletonFrom_ids (employees : List Employee) :
    ∀ idx : Nat, (skeletonFrom idx employees).map (fun x => x.2.1)
      = employees.map (fun e => e.id) := by
  induction employees with
  | nil => intro idx; rfl
  | cons e rest ih => intro idx; simp [skeletonFrom, ih]

theorem skeletonFrom_refs (employees : List Employee) :
    ∀ idx : Nat, (skeletonFrom idx employees).map Prod.fst
      = List.range' idx employees.length := by
  induction employees with
  | nil => intro idx; rfl
  | cons e rest ih => intro idx; simp [skeletonFrom, ih, List.range'_succ]

theorem mem_skeletonFrom (employees : List Employee) :
    ∀ (idx : Nat) (x : Nat × String × String),
      x ∈ skeletonFrom idx employees ↔
        ∃ (j : Nat) (h : j < employees.length),
          x = (idx + j, (employees.get ⟨j, h⟩).id, (employees.get ⟨j, h⟩).name) := by
  induction employees with
  | nil => intro idx x; simp [skeletonFrom]
  | cons e rest ih =>
    intro idx x
    simp only [skeletonFrom, List.mem_cons, ih (idx + 1) x]
    constructor
    · rintro (h | ⟨j, hj, h⟩)
      · exact ⟨0, by simp, by simpa using h⟩
      · refine ⟨j + 1, by simpa using hj, ?_⟩
        rw [h]
        simp only [List.get_cons_succ, Prod.mk.injEq, and_true]
        omega
    · rintro ⟨j, hj, h⟩
      cases j with
      | zero => left; simpa using h
      | succ k =>
        right
        refine ⟨k, by simpa using hj, ?_⟩
        rw [h]
        simp only [List.get_cons_succ, Prod.mk.injEq, and_true]
        omega

theorem queue_ids_nodup (employees : List Employee) (q : List QueueRecord)
    (hid : (employees.map (fun e => e.id)).Nodup)
    (hsk : (q.map skel).Perm (skeletonFrom 0 employees)) :
    (q.map (fun r => r.id)).Nodup := by
  have h1 : (q.map (fun r => r.id)) = (q.map skel).map (fun x => x.2.1) := by
    simp [skel, Function.comp_def]
  rw [h1]
  have h2 := hsk.map (fun x => x.2.1)
  rw [skeletonFrom_ids] at h2
  exact h2.nodup_iff.2 hid

theorem queue_refs_nodup (employees : List Employee) (q : List QueueRecord)
    (hsk : (q.map skel).Perm (skeletonFrom 0 employees)) :
    (q.map (fun r => r.ref)).Nodup := by
  have h1 : (q.map (fun r => r.ref)) = (q.map skel).map Prod.fst := by
    simp [skel, Function.comp_def]
  rw [h1]
  have h2 := hsk.map Prod.fst
  rw [skeletonFrom_refs] at h2
  exact h2.nodup_iff.2 (List.nodup_range' _ _)

theorem queue_ref_lt (employees : List Employee) (q : List QueueRecord)
    (hsk : (q.map skel).Perm (skeletonFrom 0 employees)) (r : QueueRecord) (hr : r ∈ q) :
    ∃ h : r.ref < employees.length, (employees.get ⟨r.ref, h⟩).id = r.id := by
  have h1 : skel r ∈ skeletonFrom 0 employees :=
    hsk.mem_iff.1 (List.mem_map_of_mem skel hr)
  obtain ⟨j, hj, h⟩ := (mem_skeletonFrom employees 0 _).1 h1
  simp only [skel, Prod.mk.injEq, Nat.zero_add] at h
  obtain ⟨h2, h3, _⟩ := h
  subst h2
  exact ⟨hj, h3.symm⟩

theorem queue_has_ref (employees : List Employee) (q : List QueueRecord)
    (hsk : (q.map skel).Perm (skeletonFrom 0 employees)) (i : Nat)
    (hi : i < employees.length) :
    ∃ r ∈ q, r.ref = i ∧ r.id = (employees.get ⟨i, hi⟩).id := by
  have h1 : (i, (employees.get ⟨i, hi⟩).id, (employees.get ⟨i, hi⟩).name)
      ∈ skeletonFrom 0 employees :=
    (mem_skeletonFrom employees 0 _).2 ⟨i, hi, by simp⟩
  have h2 := hsk.mem_iff.2 h1
  obtain ⟨r, hr, hrs⟩ := List.mem_map.1 h2
  simp only [skel, Prod.mk.injEq] at hrs
  exact ⟨r, hr, hrs.1, hrs.2.1⟩

theorem eq_of_mem_of_id_eq (q : List QueueRecord) (hnd : (q.map (fun r => r.id)).Nodup)
    (a b : QueueRecord) (ha : a ∈ q) (hb : b ∈ q) (h : a.id = b.id) : a = b :=
  List.inj_on_of_nodup_map hnd ha hb h

theorem eq_of_mem_of_ref_eq (q : List QueueRecord) (hnd : (q.map (fun r => r.ref)).Nodup)
    (a b : QueueRecord) (ha : a ∈ q) (hb : b ∈ q) (h : a.ref = b.ref) : a = b :=
  List.inj_on_of_nodup_map hnd ha hb h

/-! ### One day of an attempt -/

theorem normalCount_le (s : Schedule) : normalCount s ≤ s.length :=
  List.countP_le_length _

theorem inv_total_pos {employees : List Employee} {target : TargetDistribution}
    {cp : List CustomProject} {done rest : List DateKey} {d : DateKey} {st : AttemptState}
    (h : Inv employees target cp done (d :: rest) st) : 0 < totalRemaining st.queue := by
  have h1 := h.exact
  have h2 := normalCount_le st.schedule
  have h3 : st.schedule.length = done.length := by
    rw [← h.keys, List.length_map]
  simp only [List.length_cons] at h1
  push_cast at h1
  omega

theorem scheduleDay_inv (ambient : Ambient) (employees : List Employee)
    (target : TargetDistribution) (cp : List CustomProject) (done rest : List DateKey)
    (d : DateKey) (st : AttemptState)
    (hid : (employees.map (fun e => e.id)).Nodup)
    (hfresh : d ∉ done)
    (h : Inv employees target cp done (d :: rest) st) :
    ∃ st1, scheduleDay ambient cp st d = .ok st1 ∧
      Inv employees target cp (done ++ [d]) rest st1 := by
  have hpos := inv_total_pos h
  have hkey : d ∉ st.schedule.map Prod.fst := by rw [h.keys]; exact hfresh
  have hlen : st.schedule.length = done.length := by rw [← h.keys, List.length_map]
  have hids := queue_ids_nodup employees st.queue hid h.skeleton
  have hrefs := queue_refs_nodup employees st.queue h.skeleton
  obtain ⟨emp, hsel, hemp, n, hn, hnpos⟩ :=
    selectEmployee_some (ambient.random st.randomCalls) st.queue d st.schedule h.nonneg hpos
  obtain ⟨hreflt, _⟩ := queue_ref_lt employees st.queue h.skeleton emp hemp
  have hex := h.exact
  simp only [List.length_cons] at hex
  cases hov : overrideFor cp d with
  | some p =>
    have hov1 : cp.find? (fun p => decide (p.date = d)) = some p := hov
    cases hty : p.type with
    | rest =>
      refine ⟨_, by simp only [scheduleDay, hov1, hty]; rfl, ?_⟩
      simp only [objSet_fresh _ _ _ hkey]
      refine ⟨by simp [h.keys], h.skeleton, h.nonneg, ?_, ?_, ?_⟩
      · intro r hr
        obtain ⟨t, ht, hq⟩ := h.quota r hr
        refine ⟨t, ht, ?_⟩
        rw [hq]; simp [countNormal, List.countP_append, List.countP_cons]
      · simp only [normalCount, List.countP_append, List.countP_cons, List.countP_nil,
          List.length_append, List.length_singleton] at hex ⊢
        push_cast at hex ⊢
        simp only [Option.isSome_none, Option.isSome_some, Bool.false_eq_true, if_false, if_true]
        omega
      · intro q hq
        rcases List.mem_append.1 hq with hq1 | hq1
        · exact h.entries q hq1
        · simp only [List.mem_singleton] at hq1
          subst hq1
          simp [EntryOK, hov, hty]
    | duty =>
      refine ⟨_, by simp only [scheduleDay, hov1, hty]; rfl, ?_⟩
      simp only [objSet_fresh _ _ _ hkey]
      refine ⟨by simp [h.keys], h.skeleton, h.nonneg, ?_, ?_, ?_⟩
      · intro r hr
        obtain ⟨t, ht, hq⟩ := h.quota r hr
        refine ⟨t, ht, ?_⟩
        rw [hq]; simp [countNormal, List.countP_append, List.countP_cons]
      · simp only [normalCount, List.countP_append, List.countP_cons, List.countP_nil,
          List.length_append, List.length_singleton] at hex ⊢
        push_cast at hex ⊢
        simp only [Option.isSome_none, Option.isSome_some, Bool.false_eq_true, if_false, if_true]
        omega
      · intro q hq
        rcases List.mem_append.1 hq with hq1 | hq1
        · exact h.entries q hq1
        · simp only [List.mem_singleton] at hq1
          subst hq1
          simp only [EntryOK, hov, hty, hsel, employeeValue, true_and]
          exact ⟨emp.ref, hreflt, rfl⟩
  | none =>
    have hov1 : cp.find? (fun p => decide (p.date = d)) = none := hov
    refine ⟨_, by simp only [scheduleDay, hov1, hsel]; rfl, ?_⟩
    simp only [objSet_fresh _ _ _ hkey]
    have hsome : ∀ r ∈ st.queue, ∃ n : Int, r.remaining = some n := fun r hr => by
      obtain ⟨m, hm, _⟩ := h.nonneg r hr
      exact ⟨m, hm⟩
    refine ⟨by simp [h.keys], (updateQueue_skel _ _).trans h.skeleton, ?_, ?_, ?_, ?_⟩
    · intro r1 hr1
      obtain ⟨r, hr, hcase⟩ := updateQueue_mem st.queue emp.id hids r1 hr1
      rcases hcase with ⟨hrid, hr1eq⟩ | ⟨_, hr1eq⟩
      · have : r = emp := eq_of_mem_of_id_eq st.queue hids r emp hr hemp hrid
        subst this
        refine ⟨n - 1, ?_, by omega⟩
        rw [hr1eq]; simp [hn, jsSub]
      · rw [hr1eq]; exact h.nonneg r hr
    · intro r1 hr1
      obtain ⟨r, hr, hcase⟩ := updateQueue_mem st.queue emp.id hids r1 hr1
      obtain ⟨t, ht, hq⟩ := h.quota r hr
      rcases hcase with ⟨hrid, hr1eq⟩ | ⟨hrid, hr1eq⟩
      · have : r = emp := eq_of_mem_of_id_eq st.queue hids r emp hr hemp hrid
        subst this
        refine ⟨t, by rw [hr1eq]; exact ht, ?_⟩
        rw [hr1eq]
        simp only [hq, jsSub, countNormal, List.countP_append, List.countP_cons,
          List.countP_nil, employeeValue]
        simp
        ring
      · have hne : ¬ emp.ref = r.ref := by
          intro heq
          exact hrid (by rw [eq_of_mem_of_ref_eq st.queue hrefs emp r hemp hr heq])
        refine ⟨t, by rw [hr1eq]; exact ht, ?_⟩
        rw [hr1eq]
        simp only [hq, countNormal, List.countP_append, List.countP_cons,
          List.countP_nil, employeeValue]
        simp [hne]
    · rw [updateQueue_total st.queue emp.id hsome ⟨emp, hemp, rfl⟩]
      simp only [normalCount, List.countP_append, List.countP_cons, List.countP_nil,
        List.length_append, List.length_singleton] at hex ⊢
      push_cast at hex ⊢
      simp only [Option.isSome_none, Option.isSome_some, Bool.false_eq_true, if_false, if_true]
      omega
    · intro q hq
      rcases List.mem_append.1 hq with hq1 | hq1
      · exact h.entries q hq1
      · simp only [List.mem_singleton] at hq1
        subst hq1
        simp only [EntryOK, hov, employeeValue, true_and]
        exact ⟨by simp, emp.ref, hreflt, rfl⟩

theorem scheduleDays_inv (ambient : Ambient) (employees : List Employee)
    (target : TargetDistribution) (cp : List CustomProject)
    (hid : (employees.map (fun e => e.id)).Nodup) (days : List DateKey) :
    ∀ (done rest : List DateKey) (st : AttemptState),
      (done ++ days).Nodup →
      Inv employees target cp done (days ++ rest) st →
      ∃ st1, scheduleDays ambient cp st days = .ok st1 ∧
        Inv employees target cp (done ++ days) rest st1 := by
  induction days with
  | nil => intro done rest st _ h; exact ⟨st, rfl, by simpa using h⟩
  | cons d ds ih =>
    intro done rest st hnd h
    have hfresh : d ∉ done := by
      intro hd
      have := List.nodup_append.1 hnd
      exact this.2.2 hd (List.mem_cons_self _ _)
    obtain ⟨st1, hst1, hinv1⟩ :=
      scheduleDay_inv ambient employees target cp done (ds ++ rest) d st hid hfresh h
    have hnd2 : ((done ++ [d]) ++ ds).Nodup := by simpa using hnd
    obtain ⟨st2, hst2, hinv2⟩ := ih (done ++ [d]) rest st1 hnd2 hinv1
    refine ⟨st2, ?_, by simpa using hinv2⟩
    simp only [scheduleDays, hst1, hst2]

/-! ### The state in which an attempt starts -/

theorem targetList_lookup_sum (b r : Int) (employees : List Employee) :
    ∀ (idx : Nat) (acc : TargetDistribution),
      (employees.map (fun e => e.id)).Nodup →
      (∀ e ∈ employees, e.id ∉ acc.map Prod.fst) →
      (employees.map
          (fun e => orZero (objGet (acc ++ targetList b r idx employees) e.id))).sum
        = ((targetList b r idx employees).map Prod.snd).sum := by
  induction employees with
  | nil => intro idx acc _ _; rfl
  | cons e rest ih =>
    intro idx acc hnd hfresh
    simp only [List.map_cons, List.nodup_cons] at hnd
    have he : e.id ∉ acc.map Prod.fst := hfresh e (List.mem_cons_self _ _)
    have hfresh2 : ∀ x ∈ rest,
        x.id ∉ (acc ++ [(e.id, b + (if (idx : Int) < r then 1 else 0))]).map Prod.fst := by
      intro x hx
      simp only [List.map_append, List.map_cons, List.map_nil, List.mem_append,
        List.mem_singleton, not_or]
      refine ⟨hfresh x (List.mem_cons_of_mem _ hx), ?_⟩
      intro hxe
      exact hnd.1 (hxe ▸ List.mem_map_of_mem (fun e => e.id) hx)
    have h2 := ih (idx + 1) _ hnd.2 hfresh2
    simp only [List.append_assoc, List.singleton_append] at h2
    simp only [targetList, List.map_cons, List.sum_cons, h2]
    rw [objGet_append_fresh acc _ e.id he]
    simp [objGet, orZero]

theorem targetList_lookup (b r : Int) (hb : 0 ≤ b) (employees : List Employee)
    (hnd : (employees.map (fun e => e.id)).Nodup) :
    ∀ e ∈ employees, ∃ v : Int, objGet (targetList b r 0 employees) e.id = some v ∧ 0 ≤ v := by
  intro e he
  obtain ⟨i, hget⟩ := List.mem_iff_get.1 he
  have h1 := targetList_get b r employees 0 i.1 i.2 hnd
  have h2 : employees.get ⟨i.1, i.2⟩ = e := hget
  rw [h2] at h1
  refine ⟨_, h1, ?_⟩
  split <;> omega

theorem initial_inv (shuffled employees : List Employee) (dutyDays : List DateKey)
    (cp : List CustomProject) (hne : employees ≠ [])
    (hid : (employees.map (fun e => e.id)).Nodup) :
    Inv employees (targetsFor shuffled employees dutyDays) cp [] dutyDays
      (initialState employees (targetsFor shuffled employees dutyDays)) := by
  have htl : targetsFor shuffled employees dutyDays
      = targetList ((dutyDays.length / employees.length : Nat) : Int)
          ((dutyDays.length % employees.length : Nat) : Int) 0 employees := by
    rfl
  have hb : (0 : Int) ≤ ((dutyDays.length / employees.length : Nat) : Int) := Int.ofNat_nonneg _
  have hmem : ∀ r ∈ (initialState employees (targetsFor shuffled employees dutyDays)).queue,
      ∃ v : Int, objGet (targetsFor shuffled employees dutyDays) r.id = some v ∧ 0 ≤ v ∧
        r.remaining = some v := by
    intro r hr
    have hr1 : r ∈ createRecords (targetsFor shuffled employees dutyDays) 0 employees :=
      (sortQueue_perm _).mem_iff.1 hr
    obtain ⟨hrem, e, he, hre⟩ := createRecords_mem _ employees 0 r hr1
    have := targetList_lookup ((dutyDays.length / employees.length : Nat) : Int)
      ((dutyDays.length % employees.length : Nat) : Int) hb employees hid e he
    rw [← htl, ← hre] at this
    obtain ⟨v, hv, hv0⟩ := this
    exact ⟨v, hv, hv0, by rw [hrem, hv]⟩
  refine ⟨rfl, ?_, ?_, ?_, ?_, ?_⟩
  · have h := (sortQueue_perm
      (createRecords (targetsFor shuffled employees dutyDays) 0 employees)).map skel
    rw [createRecords_skel] at h
    exact h
  · intro r hr
    obtain ⟨v, _, hv0, hv⟩ := hmem r hr
    exact ⟨v, hv, hv0⟩
  · intro r hr
    obtain ⟨v, hv1, _, hv⟩ := hmem r hr
    refine ⟨v, hv1, ?_⟩
    rw [hv]; simp [initialState, countNormal]
  · have h1 : totalRemaining
        (initialState employees (targetsFor shuffled employees dutyDays)).queue
        = (dutyDays.length : Int) := by
      simp only [initialState, createPriorityQueue]
      rw [totalRemaining_perm (sortQueue_perm _)]
      unfold totalRemaining
      have h2 : (createRecords (targetsFor shuffled employees dutyDays) 0 employees).map
          (fun r => orZero r.remaining)
          = employees.map
              (fun e => orZero (objGet (targetsFor shuffled employees dutyDays) e.id)) := by
        have := congrArg (List.map orZero)
          (createRecords_remaining (targetsFor shuffled employees dutyDays) employees 0)
        simpa [Function.comp_def] using this
      rw [h2, htl]
      have h3 := targetList_lookup_sum ((dutyDays.length / employees.length : Nat) : Int)
        ((dutyDays.length % employees.length : Nat) : Int) employees 0 [] hid (by simp)
      simp only [List.nil_append] at h3
      rw [h3]
      exact targetList_sum_total dutyDays.length employees hne
    rw [h1]
    simp [initialState, normalCount]
  · intro p hp
    simp [initialState] at hp

theorem trySchedule_run (ambient : Ambient) (shuffled employees : List Employee)
    (dutyDays : List DateKey) (cp : List CustomProject) (hne : employees ≠ [])
    (hid : (employees.map (fun e => e.id)).Nodup) (hdd : dutyDays.Nodup) :
    ∃ st, scheduleDays ambient cp
        (initialState employees (targetsFor shuffled employees dutyDays)) dutyDays = .ok st ∧
      trySchedule ambient dutyDays employees (targetsFor shuffled employees dutyDays) cp
        = .ok st.schedule ∧
      Inv employees (targetsFor shuffled employees dutyDays) cp dutyDays [] st := by
  have h0 := initial_inv shuffled employees dutyDays cp hne hid
  obtain ⟨st, hst, hinv⟩ := scheduleDays_inv ambient employees _ cp hid dutyDays [] []
    _ (by simpa using hdd) (by simpa using h0)
  refine ⟨st, hst, ?_, by simpa using hinv⟩
  simp only [trySchedule, hst]

/-- C6: for a non-empty roster with pairwise distinct ids, a duplicate-free
list of duty days, the targets computed for them, any overrides and any
random draws and clock, `trySchedule` raises no error and returns a schedule
whose dates are exactly the duty days, each once and in order; the entry of a
date with a `rest` override is of kind rest with `employee = null`, and every
other entry is of kind duty and holds the queue record of exactly one roster
participant (index below the roster length), so the selection pool was never
empty. -/
theorem trySchedule_complete (ambient : Ambient) (shuffled employees : List Employee)
    (dutyDays : List DateKey) (customProjects : List CustomProject)
    (hne : employees ≠ []) (hid : (employees.map (fun e => e.id)).Nodup)
    (hdd : dutyDays.Nodup) :
    ∃ s, trySchedule ambient dutyDays employees
        (targetsFor shuffled employees dutyDays) customProjects = .ok s ∧
      s.map Prod.fst = dutyDays ∧
      ∀ p ∈ s,
        (hasRestOverride customProjects p.1 →
          p.2.type = Kind.rest ∧ p.2.employee = JSValue.null) ∧
        (¬ hasRestOverride customProjects p.1 →
          p.2.type = Kind.duty ∧
            ∃ i, i < employees.length ∧ p.2.employee = JSValue.object i) := by
  obtain ⟨st, _, htry, hinv⟩ :=
    trySchedule_run ambient shuffled employees dutyDays customProjects hne hid hdd
  refine ⟨st.schedule, htry, hinv.keys, ?_⟩
  intro p hp
  have he := hinv.entries p hp
  unfold EntryOK at he
  cases hov : overrideFor customProjects p.1 with
  | none =>
    rw [hov] at he
    refine ⟨?_, ?_⟩
    · rintro ⟨o, ho, _⟩
      rw [hov] at ho
      exact absurd ho (by simp)
    · intro _
      exact ⟨he.1, he.2.2.2⟩
  | some o =>
    rw [hov] at he
    simp only [] at he
    cases hty : o.type with
    | rest =>
      rw [hty] at he
      refine ⟨fun _ => ⟨he.1, he.2.2.2⟩, ?_⟩
      intro hn
      exact absurd ⟨o, hov, hty⟩ hn
    | duty =>
      rw [hty] at he
      refine ⟨?_, fun _ => ⟨he.1, he.2.2.2⟩⟩
      rintro ⟨o2, ho2, hty2⟩
      rw [hov] at ho2
      simp only [Option.some.injEq] at ho2
      subst ho2
      rw [hty] at hty2
      exact absurd hty2 (by decide)

/-- C6 at a concrete input: the roster `[alice, bob]`, four weekdays, a
`rest` override on the second and a `duty` override on the third. -/
theorem trySchedule_complete_witness :
    ∃ s, trySchedule lateDraws fourDays [alice, bob]
        (targetsFor [] [alice, bob] fourDays)
        [{ date := ymd 2024 1 3, type := Kind.rest, project := none },
         { date := ymd 2024 1 4, type := Kind.duty, project := some "巡检" }] = .ok s ∧
      s.map Prod.fst = fourDays ∧
      ∀ p ∈ s,
        (hasRestOverride
            [{ date := ymd 2024 1 3, type := Kind.rest, project := none },
             { date := ymd 2024 1 4, type := Kind.duty, project := some "巡检" }] p.1 →
          p.2.type = Kind.rest ∧ p.2.employee = JSValue.null) ∧
        (¬ hasRestOverride
            [{ date := ymd 2024 1 3, type := Kind.rest, project := none },
             { date := ymd 2024 1 4, type := Kind.duty, project := some "巡检" }] p.1 →
          p.2.type = Kind.duty ∧
            ∃ i, i < [alice, bob].length ∧ p.2.employee = JSValue.object i) :=
  trySchedule_complete lateDraws [] [alice, bob] fourDays _ (by decide) (by decide)
    (by decide)

/-! ### Scoring and quota on concrete attempts -/

/-- C12 (the code's behaviour): roster `[alice, bob]`, four weekdays, targets
2 and 2.  The attempt gives each of them two days, so every actual count
equals its target, yet `calculateVariance` returns 2: its counts are keyed by
`'[object Object]'`, and every roster id reads as 0. -/
theorem calculateVariance_ignores_assignments :
    ∃ s, trySchedule calm fourDays [alice, bob] twoEach [] = .ok s ∧
      assignedCount 0 s = 2 ∧ assignedCount 1 s = 2 ∧
      twoEach = [("1", 2), ("2", 2)] ∧
      countActual s [] = [("[object Object]", Count.num 4)] ∧
      calculateVariance s twoEach = some 2 :=
  ⟨_, rfl, by decide, by decide, by decide, by decide, by decide⟩

/-- C14 (the code's behaviour): roster `[alice]`, the single duty day
2024-01-02 with a `duty` override, target `{'1': 1}`.  The attempt ends with
one Duty-kind entry that holds the record of `alice`, and her `remaining` is
still 1: the override branch returns before `updateQueue` is called. -/
theorem duty_override_keeps_remaining :
    ∃ st, scheduleDays calm
        [{ date := ymd 2024 1 2, type := Kind.duty, project := some "巡检" }]
        (initialState [alice] oneForAlice) [ymd 2024 1 2] = .ok st ∧
      st.schedule = [(ymd 2024 1 2, { type := Kind.duty, project := "巡检",
                                      employee := JSValue.object 0, assignedAt := none })] ∧
      assignedCount 0 st.schedule = 1 ∧
      oneForAlice = [("1", 1)] ∧
      st.queue.map (fun r => (r.ref, r.remaining)) = [(0, some 1)] :=
  ⟨_, rfl, by decide, by decide, by decide, by decide⟩

/-! ### Overrides -/

theorem scheduleDay_schedule (ambient : Ambient) (cp : List CustomProject)
    (st st1 : AttemptState) (d : DateKey) (h : scheduleDay ambient cp st d = .ok st1) :
    ∃ e, st1.schedule = objSet st.schedule d e ∧
      ∀ o, overrideFor cp d = some o → o.type = Kind.rest → e = restEntry o := by
  unfold scheduleDay at h
  cases hov : overrideFor cp d with
  | none =>
    have hov1 : cp.find? (fun p => decide (p.date = d)) = none := hov
    rw [hov1] at h
    simp only [] at h
    split at h
    · simp only [Except.ok.injEq] at h
      subst h
      exact ⟨_, rfl, fun o ho => by simp at ho⟩
    · exact absurd h (by simp)
  | some p =>
    have hov1 : cp.find? (fun p => decide (p.date = d)) = some p := hov
    rw [hov1] at h
    simp only [] at h
    cases hty : p.type with
    | rest =>
      rw [hty] at h
      simp only [Except.ok.injEq] at h
      subst h
      refine ⟨_, rfl, ?_⟩
      intro o ho _
      simp only [Option.some.injEq] at ho
      subst ho
      rfl
    | duty =>
      rw [hty] at h
      simp only [Except.ok.injEq] at h
      subst h
      refine ⟨_, rfl, ?_⟩
      intro o ho hrest
      simp only [Option.some.injEq] at ho
      subst ho
      rw [hty] at hrest
      exact absurd hrest (by decide)

theorem scheduleDays_rest (ambient : Ambient) (cp : List CustomProject)
    (days : List DateKey) :
    ∀ (st stf : AttemptState) (done : List DateKey),
      scheduleDays ambient cp st days = .ok stf →
      (∀ d ∈ done, ∀ o, overrideFor cp d = some o → o.type = Kind.rest →
        objGet st.schedule d = some (restEntry o)) →
      ∀ d ∈ done ++ days, ∀ o, overrideFor cp d = some o → o.type = Kind.rest →
        objGet stf.schedule d = some (restEntry o) := by
  induction days with
  | nil =>
    intro st stf done h hP
    simp only [scheduleDays, Except.ok.injEq] at h
    subst h
    simpa using hP
  | cons d ds ih =>
    intro st stf done h hP
    simp only [scheduleDays] at h
    cases hstep : scheduleDay ambient cp st d with
    | error e => rw [hstep] at h; exact absurd h (by simp)
    | ok st1 =>
      rw [hstep] at h
      simp only [] at h
      obtain ⟨e, hsched, he⟩ := scheduleDay_schedule ambient cp st st1 d hstep
      have hP1 : ∀ x ∈ done ++ [d], ∀ o, overrideFor cp x = some o → o.type = Kind.rest →
          objGet st1.schedule x = some (restEntry o) := by
        intro x hx o ho hrest
        rw [hsched]
        by_cases hxd : d = x
        · subst hxd
          rw [objGet_objSet_same, he o ho hrest]
        · rw [objGet_objSet_other _ _ _ _ hxd]
          rcases List.mem_append.1 hx with h1 | h1
          · exact hP x h1 o ho hrest
          · simp only [List.mem_singleton] at h1
            exact absurd h1.symm hxd
      have := ih st1 stf (done ++ [d]) h hP1
      simpa using this

theorem trySchedule_rest (ambient : Ambient) (dutyDays : List DateKey)
    (employees : List Employee) (target : TargetDistribution) (cp : List CustomProject)
    (s : Schedule) (h : trySchedule ambient dutyDays employees target cp = .ok s) :
    ∀ d ∈ dutyDays, ∀ o, overrideFor cp d = some o → o.type = Kind.rest →
      objGet s d = some (restEntry o) := by
  unfold trySchedule at h
  cases hrun : scheduleDays ambient cp (initialState employees target) dutyDays with
  | error e => rw [hrun] at h; exact absurd h (by simp)
  | ok st =>
    rw [hrun] at h
    simp only [Except.ok.injEq] at h
    subst h
    have := scheduleDays_rest ambient cp dutyDays _ st [] hrun (by simp)
    simpa using this

theorem overrideFor_first (pre post : List CustomProject) (o : CustomProject) (d : DateKey)
    (ho : o.date = d) (hpre : ∀ x ∈ pre, x.date ≠ d) :
    overrideFor (pre ++ o :: post) d = some o := by
  induction pre with
  | nil => simp [overrideFor, List.find?, ho]
  | cons a rest ih =>
    have ha : ¬ a.date = d := hpre a (List.mem_cons_self _ _)
    have := ih (fun x hx => hpre x (List.mem_cons_of_mem _ hx))
    simpa [overrideFor, List.find?, ha] using this

theorem entry_of_duty_day (ambient : Ambient) (shuffled employees : List Employee)
    (dutyDays : List DateKey) (cp : List CustomProject)
    (hne : employees ≠ []) (hid : (employees.map (fun e => e.id)).Nodup)
    (hdd : dutyDays.Nodup) :
    ∃ s, trySchedule ambient dutyDays employees (targetsFor shuffled employees dutyDays) cp
        = .ok s ∧
      ∀ d ∈ dutyDays, ∃ e, objGet s d = some e ∧ EntryOK employees cp d e := by
  obtain ⟨st, _, htry, hinv⟩ :=
    trySchedule_run ambient shuffled employees dutyDays cp hne hid hdd
  refine ⟨st.schedule, htry, ?_⟩
  intro d hd
  have hk : d ∈ st.schedule.map Prod.fst := by rw [hinv.keys]; exact hd
  obtain ⟨e, he⟩ := exists_entry_of_key st.schedule d hk
  have hnd : (st.schedule.map Prod.fst).Nodup := by rw [hinv.keys]; exact hdd
  exact ⟨e, objGet_of_mem st.schedule hnd d e he, hinv.entries (d, e) he⟩

/-- C10 (the code's behaviour at a concrete input): a `duty` override whose
label is the empty string yields an entry whose label is `'休息'`, not the
label of the override. -/
theorem duty_override_empty_label :
    trySchedule calm [ymd 2024 1 2] [alice] oneForAlice
        [{ date := ymd 2024 1 2, type := Kind.duty, project := some "" }]
      = .ok [(ymd 2024 1 2, { type := Kind.duty, project := "休息",
                              employee := JSValue.object 0, assignedAt := none })] := by
  decide

/-- C10, amended: the override applied to a duty day is the first one in the
list for that date.  Whatever the target distribution, a schedule that
`trySchedule` returns has, on every duty day whose override is `rest`, an
entry of kind rest with `employee = null`.  For a non-empty roster with
distinct ids, duplicate-free duty days and the targets computed for them,
`trySchedule` returns a schedule in which every duty day whose override is
`duty` has an entry of kind duty that holds the record of a selected roster
participant.  In both cases the label is `project || '休息'`: the label of the
override when that is a non-empty string, `'休息'` otherwise. -/
theorem override_precedence (ambient : Ambient) (shuffled employees : List Employee)
    (dutyDays : List DateKey) (customProjects : List CustomProject)
    (hne : employees ≠ []) (hid : (employees.map (fun e => e.id)).Nodup)
    (hdd : dutyDays.Nodup) :
    (∀ (target : TargetDistribution) (s : Schedule),
      trySchedule ambient dutyDays employees target customProjects = .ok s →
      ∀ d ∈ dutyDays, ∀ o, overrideFor customProjects d = some o → o.type = Kind.rest →
        objGet s d = some { type := Kind.rest, project := projectOrDefault o.project,
                            employee := JSValue.null, assignedAt := none }) ∧
    (∃ s, trySchedule ambient dutyDays employees
        (targetsFor shuffled employees dutyDays) customProjects = .ok s ∧
      ∀ d ∈ dutyDays, ∀ o, overrideFor customProjects d = some o → o.type = Kind.duty →
        ∃ i, i < employees.length ∧
          objGet s d = some { type := Kind.duty, project := projectOrDefault o.project,
                              employee := JSValue.object i, assignedAt := none }) ∧
    (∀ l : String, l ≠ "" → projectOrDefault (some l) = l) ∧
    projectOrDefault (some "") = "休息" ∧ projectOrDefault none = "休息" := by
  refine ⟨?_, ?_, ?_, rfl, rfl⟩
  · intro target s h d hd o ho hrest
    exact trySchedule_rest ambient dutyDays employees target customProjects s h d hd o ho hrest
  · obtain ⟨s, hs, hall⟩ :=
      entry_of_duty_day ambient shuffled employees dutyDays customProjects hne hid hdd
    refine ⟨s, hs, ?_⟩
    intro d hd o ho hduty
    obtain ⟨e, hget, hok⟩ := hall d hd
    unfold EntryOK at hok
    rw [ho] at hok
    simp only [hduty] at hok
    obtain ⟨h1, h2, h3, i, hi, h4⟩ := hok
    refine ⟨i, hi, ?_⟩
    rw [hget]
    obtain ⟨t, p, emp, a⟩ := e
    simp only at h1 h2 h3 h4
    subst h1 h2 h3 h4
    rfl
  · intro l hl
    simp [projectOrDefault, hl]

/-- C10, amended, at a concrete input: the roster `[alice, bob]`, four
weekdays, a `rest` override on the second and a labelled `duty` override on
the third. -/
theorem override_precedence_witness :
    (∀ (target : TargetDistribution) (s : Schedule),
      trySchedule lateDraws fourDays [alice, bob] target
        [{ date := ymd 2024 1 3, type := Kind.rest, project := none },
         { date := ymd 2024 1 4, type := Kind.duty, project := some "巡检" }] = .ok s →
      ∀ d ∈ fourDays, ∀ o,
        overrideFor [{ date := ymd 2024 1 3, type := Kind.rest, project := none },
          { date := ymd 2024 1 4, type := Kind.duty, project := some "巡检" }] d = some o →
        o.type = Kind.rest →
        objGet s d = some { type := Kind.rest, project := projectOrDefault o.project,
                            employee := JSValue.null, assignedAt := none }) ∧
    (∃ s, trySchedule lateDraws fourDays [alice, bob]
        (targetsFor [] [alice, bob] fourDays)
        [{ date := ymd 2024 1 3, type := Kind.rest, project := none },
         { date := ymd 2024 1 4, type := Kind.duty, project := some "巡检" }] = .ok s ∧
      ∀ d ∈ fourDays, ∀ o,
        overrideFor [{ date := ymd 2024 1 3, type := Kind.rest, project := none },
          { date := ymd 2024 1 4, type := Kind.duty, project := some "巡检" }] d = some o →
        o.type = Kind.duty →
        ∃ i, i < [alice, bob].length ∧
          objGet s d = some { type := Kind.duty, project := projectOrDefault o.project,
                              employee := JSValue.object i, assignedAt := none }) ∧
    (∀ l : String, l ≠ "" → projectOrDefault (some l) = l) ∧
    projectOrDefault (some "") = "休息" ∧ projectOrDefault none = "休息" :=
  override_precedence lateDraws [] [alice, bob] fourDays _ (by decide) (by decide)
    (by decide)

/-- C11 (the code's behaviour at a concrete input): with a `duty` override
followed by a `rest` override for the same duty day, the entry is of kind
duty and carries the label of the first one. -/
theorem duplicate_override_example :
    trySchedule calm [ymd 2024 1 2] [alice] oneForAlice
        [{ date := ymd 2024 1 2, type := Kind.duty, project := some "巡检" },
         { date := ymd 2024 1 2, type := Kind.rest, project := some "调休" }]
      = .ok [(ymd 2024 1 2, { type := Kind.duty, project := "巡检",
                              employee := JSValue.object 0, assignedAt := none })] := by
  decide

/-- C11, amended: when the override list holds several entries for the same
duty day, `trySchedule` applies the first of them in list order: for a
non-empty roster with distinct ids, duplicate-free duty days and the targets
computed for them, the entry of that day has the kind of the first override
for its date and the label `project || '休息'` of that override; later entries
for the date are never read. -/
theorem first_override_applies (ambient : Ambient) (shuffled employees : List Employee)
    (dutyDays : List DateKey) (pre post : List CustomProject) (o : CustomProject)
    (d : DateKey)
    (hne : employees ≠ []) (hid : (employees.map (fun e => e.id)).Nodup)
    (hdd : dutyDays.Nodup) (hd : d ∈ dutyDays) (ho : o.date = d)
    (hpre : ∀ x ∈ pre, x.date ≠ d) :
    ∃ s e, trySchedule ambient dutyDays employees
        (targetsFor shuffled employees dutyDays) (pre ++ o :: post) = .ok s ∧
      objGet s d = some e ∧ e.type = o.type ∧ e.project = projectOrDefault o.project := by
  obtain ⟨s, hs, hall⟩ :=
    entry_of_duty_day ambient shuffled employees dutyDays (pre ++ o :: post) hne hid hdd
  obtain ⟨e, hget, hok⟩ := hall d hd
  unfold EntryOK at hok
  rw [overrideFor_first pre post o d ho hpre] at hok
  exact ⟨s, e, hs, hget, hok.1, hok.2.1⟩

/-- C11, amended, at a concrete input: two overrides for 2024-01-03, a
`rest` one before a `duty` one, after an override for another day. -/
theorem first_override_applies_witness :
    ∃ s e, trySchedule lateDraws fourDays [alice, bob]
        (targetsFor [] [alice, bob] fourDays)
        ([{ date := ymd 2024 1 2, type := Kind.duty, project := some "巡检" }]
          ++ { date := ymd 2024 1 3, type := Kind.rest, project := some "调休" }
          :: [{ date := ymd 2024 1 3, type := Kind.duty, project := some "支援" }]) = .ok s ∧
      objGet s (ymd 2024 1 3) = some e ∧ e.type = Kind.rest ∧
      e.project = projectOrDefault (some "调休") :=
  first_override_applies lateDraws [] [alice, bob] fourDays _ _
    { date := ymd 2024 1 3, type := Kind.rest, project := some "调休" } (ymd 2024 1 3)
    (by decide) (by decide) (by decide) (by decide) (by decide) (by decide)

/-! ### An attempt without overrides -/

theorem remaining_zero_of_total_zero (q : List QueueRecord)
    (hnn : ∀ r ∈ q, ∃ n : Int, r.remaining = some n ∧ 0 ≤ n)
    (htot : totalRemaining q = 0) : ∀ r ∈ q, r.remaining = some 0 := by
  induction q with
  | nil => intro r hr; simp at hr
  | cons a rest ih =>
    obtain ⟨n, hn, hn0⟩ := hnn a (List.mem_cons_self _ _)
    have hrest : 0 ≤ totalRemaining rest := by
      unfold totalRemaining
      apply List.sum_nonneg
      intro x hx
      obtain ⟨r, hr, hrx⟩ := List.mem_map.1 hx
      obtain ⟨m, hm, hm0⟩ := hnn r (List.mem_cons_of_mem _ hr)
      rw [← hrx, hm]; exact hm0
    have hsum : n + totalRemaining rest = 0 := by
      simpa [totalRemaining, hn, orZero] using htot
    intro r hr
    rcases List.mem_cons.1 hr with h | h
    · subst h; rw [hn]; congr 1; omega
    · exact ih (fun x hx => hnn x (List.mem_cons_of_mem _ hx)) (by omega) r h

theorem foldl_max_zero (l : List Int) (h : ∀ x ∈ l, x = 0) : l.foldl max 0 = 0 := by
  induction l with
  | nil => rfl
  | cons a rest ih =>
    have ha : a = 0 := h a (List.mem_cons_self _ _)
    subst ha
    simpa using ih (fun x hx => h x (List.mem_cons_of_mem _ hx))

theorem deviationsFrom_zero (target : TargetDistribution) (s : Schedule)
    (employees : List Employee) :
    ∀ idx : Nat,
      (∀ (j : Nat) (h : j < employees.length),
        objGet target (employees.get ⟨j, h⟩).id = some (assignedCount (idx + j) s : Int)) →
      ∀ x ∈ deviationsFrom target s idx employees, x = 0 := by
  induction employees with
  | nil => intro idx _ x hx; simp [deviationsFrom] at hx
  | cons e rest ih =>
    intro idx hall x hx
    simp only [deviationsFrom, List.mem_cons] at hx
    rcases hx with h | h
    · have h0 : objGet target e.id = some (assignedCount idx s : Int) := hall 0 (by simp)
      rw [h, h0]; simp [orZero]
    · apply ih (idx + 1) _ x h
      intro j hj
      have h1 : objGet target (rest.get ⟨j, hj⟩).id
          = some (assignedCount (idx + (j + 1)) s : Int) := hall (j + 1) (by simpa using hj)
      rw [h1]
      have : idx + (j + 1) = idx + 1 + j := by omega
      rw [this]

/-- C15: for a non-empty roster with pairwise distinct ids, a duplicate-free
list of duty days, the targets computed for them, no override and any random
draws, one run of `trySchedule` is such that: before every duty day all
`remaining` values are non-negative numbers and the participant selected for
that day has `remaining > 0`; the run ends without error with every
`remaining` equal to 0 and every participant assigned on exactly as many days
as its target; so the true deviation `max |actual - target|` of the attempt
is 0. -/
theorem no_override_attempt (ambient : Ambient) (shuffled employees : List Employee)
    (dutyDays : List DateKey)
    (hne : employees ≠ []) (hid : (employees.map (fun e => e.id)).Nodup)
    (hdd : dutyDays.Nodup) :
    (∀ (pre post : List DateKey) (d : DateKey), dutyDays = pre ++ d :: post →
      ∃ st, scheduleDays ambient []
          (initialState employees (targetsFor shuffled employees dutyDays)) pre = .ok st ∧
        (∀ r ∈ st.queue, ∃ n : Int, r.remaining = some n ∧ 0 ≤ n) ∧
        ∃ emp, selectEmployee (ambient.random st.randomCalls) st.queue d st.schedule
            = some emp ∧ emp ∈ st.queue ∧ ∃ n : Int, emp.remaining = some n ∧ 0 < n) ∧
    (∃ st, scheduleDays ambient []
        (initialState employees (targetsFor shuffled employees dutyDays)) dutyDays = .ok st ∧
      trySchedule ambient dutyDays employees (targetsFor shuffled employees dutyDays) []
        = .ok st.schedule ∧
      (∀ r ∈ st.queue, r.remaining = some 0) ∧
      (∀ (i : Nat) (h : i < employees.length),
        objGet (targetsFor shuffled employees dutyDays) (employees.get ⟨i, h⟩).id
          = some (assignedCount i st.schedule : Int)) ∧
      trueDeviation employees (targetsFor shuffled employees dutyDays) st.schedule = 0) := by
  constructor
  · intro pre post d hsplit
    have h0 := initial_inv shuffled employees dutyDays [] hne hid
    have hnd : ([] ++ pre).Nodup := by
      have : (pre ++ d :: post).Nodup := hsplit ▸ hdd
      simpa using (List.nodup_append.1 this).1
    have h1 : Inv employees (targetsFor shuffled employees dutyDays) [] []
        (pre ++ d :: post)
        (initialState employees (targetsFor shuffled employees dutyDays)) := hsplit ▸ h0
    obtain ⟨st, hst, hinv⟩ := scheduleDays_inv ambient employees _ [] hid pre []
      (d :: post) _ hnd h1
    refine ⟨st, hst, hinv.nonneg, ?_⟩
    exact selectEmployee_some _ st.queue d st.schedule hinv.nonneg (inv_total_pos hinv)
  · obtain ⟨st, hst, htry, hinv⟩ :=
      trySchedule_run ambient shuffled employees dutyDays [] hne hid hdd
    have hent : ∀ p ∈ st.schedule, p.2.type = Kind.duty ∧ p.2.assignedAt.isSome = true := by
      intro p hp
      have := hinv.entries p hp
      simp only [EntryOK, overrideFor, List.find?] at this
      refine ⟨this.1, ?_⟩
      cases ha : p.2.assignedAt with
      | none => exact absurd ha this.2.2.1
      | some _ => rfl
    have hlen : st.schedule.length = dutyDays.length := by
      rw [← hinv.keys, List.length_map]
    have hnc : normalCount st.schedule = st.schedule.length := by
      unfold normalCount
      rw [List.countP_eq_length]
      intro p hp
      exact (hent p hp).2
    have htot : totalRemaining st.queue = 0 := by
      have := hinv.exact
      rw [hnc, hlen] at this
      simp only [List.length_nil, Nat.add_zero] at this
      omega
    have hzero := remaining_zero_of_total_zero st.queue hinv.nonneg htot
    have hcount : ∀ ref, countNormal ref st.schedule = assignedCount ref st.schedule := by
      intro ref
      unfold countNormal assignedCount
      apply List.countP_congr
      intro p hp
      obtain ⟨h1, h2⟩ := hent p hp
      simp [h1, h2]
    have htarget : ∀ (i : Nat) (h : i < employees.length),
        objGet (targetsFor shuffled employees dutyDays) (employees.get ⟨i, h⟩).id
          = some (assignedCount i st.schedule : Int) := by
      intro i hi
      obtain ⟨r, hr, hri, hrid⟩ := queue_has_ref employees st.queue hinv.skeleton i hi
      obtain ⟨t, ht, hq⟩ := hinv.quota r hr
      rw [hzero r hr, hri, hcount] at hq
      simp only [Option.some.injEq] at hq
      rw [← hrid, ht]
      congr 1
      omega
    refine ⟨st, hst, htry, hzero, htarget, ?_⟩
    unfold trueDeviation
    apply foldl_max_zero
    apply deviationsFrom_zero
    intro j hj
    simpa using htarget j hj

/-- C15 at a concrete input: the roster `[alice, bob]`, four weekdays and the
draws 0, 0.9, 0.9, ... -/
theorem no_override_attempt_witness :
    ∃ st, scheduleDays lateDraws []
        (initialState [alice, bob] (targetsFor [] [alice, bob] fourDays)) fourDays = .ok st ∧
      trySchedule lateDraws fourDays [alice, bob] (targetsFor [] [alice, bob] fourDays) []
        = .ok st.schedule ∧
      (∀ r ∈ st.queue, r.remaining = some 0) ∧
      (∀ (i : Nat) (h : i < [alice, bob].length),
        objGet (targetsFor [] [alice, bob] fourDays) ([alice, bob].get ⟨i, h⟩).id
          = some (assignedCount i st.schedule : Int)) ∧
      trueDeviation [alice, bob] (targetsFor [] [alice, bob] fourDays) st.schedule = 0 :=
  (no_override_attempt lateDraws [] [alice, bob] fourDays (by decide) (by decide)
    (by decide)).2

end DutyScheduler
